import Mathlib

set_option maxHeartbeats 1000000

/-!
A verification development for a CSS-style selector evaluation engine.

The engine evaluates parsed selector syntax trees against an abstract tree
document presented through a capability record `Operations T`.  The functions
below are shallow embeddings of the engine's source: combinator collectors
(with call-scoped identity-based deduplication), the attribute matcher
registry, compound/complex selector matching (right-to-left), lazy preorder
depth-first traversal, and the `querySelector` / `querySelectorAll` query
functions.

The source's `while` loops over `getParent` / `getPreviouSibling` chains and
the recursive traversal generator are not structurally terminating for an
arbitrary adapter (the caller contract demands a finite acyclic tree; a cyclic
tree loops forever).  The embedding therefore threads an explicit `fuel`
argument through those loops; a concrete document model (`DTree`, with nodes
identified by their paths) is given further below, together with proofs that
any `fuel` at least the size of the document makes every loop reach its
fixpoint, which expresses the termination claim.
-/

/-- Kinds of combinators in the selector AST (the external parser's
`CombinatorKind` enumeration). -/
inductive CombinatorKind where
  | Descendant
  | Child
  | NextSibling
  | SubsequentSibling
  | Column
  deriving DecidableEq, Repr

/-- Attribute match operators, in source order: `=`, `~=`, `|=`, `^=`, `$=`,
`*=`. -/
inductive AttrMatcher where
  | Equals
  | Includes
  | DashMatch
  | PrefixMatch
  | SuffixMatch
  | SubstringMatch
  deriving DecidableEq, Repr

/-- The optional matcher part of an attribute selector (`selector.match` in
the source): an operator together with the expected value
(`selector.match.value.value`). -/
structure AttrMatch where
  matcher : AttrMatcher
  value : String
  deriving DecidableEq, Repr

/-- Subclass selectors: ID (`#x`), class (`.x`), attribute (`[x]`,
`[x=v]`, ...), pseudo-class (`:x`) and pseudo-element (`::x`) selectors. -/
inductive SubclassSelector where
  | idSel (value : String)
  | classSel (value : String)
  | attrSel (name : String) (m : Option AttrMatch)
  | pseudoClassSel (value : String)
  | pseudoElementSel (value : String)
  deriving DecidableEq, Repr

/-- A compound selector: an optional type selector (its `name`), an optional
list of subclass selectors, and an optional list of pseudo selectors, exactly
the three fields the engine destructures. -/
structure CompoundSelector where
  type : Option String
  subclasses : Option (List SubclassSelector)
  pseudoes : Option (List SubclassSelector)
  deriving DecidableEq, Repr

/-- A complex selector: a head compound selector and the ordered tail of
(combinator, compound selector) pairs. -/
structure ComplexSelector where
  head : CompoundSelector
  tail : List (CombinatorKind × CompoundSelector)
  deriving DecidableEq, Repr

/-- The `Operations<T>` capability record supplied by the caller (the node
operations adapter).  Field names follow the source, including the
`getPreviouSibling` spelling.  `T | null` returns become `Option T`,
`Iterable<T>` becomes `List T`. -/
structure Operations (T : Type) where
  getTagName : T → String
  getContent : T → String
  getID : T → String
  hasClass : T → String → Bool
  getParent : T → Option T
  getChildren : T → List T
  getAttribute : T → String → Option String
  getPreviouSibling : T → Option T
  getNextSibling : T → Option T

/-- The runtime errors the engine itself raises: only the
`column combinator is not supported` error. -/
inductive QueryError where
  | unsupportedCombinator
  deriving DecidableEq, Repr

/-- ASCII upper-casing of a string, embedding JavaScript's
`toUpperCase()` on the identifiers at hand. -/
def upperStr (s : String) : String := ⟨s.data.map Char.toUpper⟩

/-- Worker for `splitSpaceRuns`.  State machine over the character list:
`skipping = true` while consuming a run of spaces that has already emitted its
chunk; `acc` holds the current chunk reversed. -/
def splitSpaceGo : Bool → List Char → List Char → List String
  | true, _, [] => [""]
  | false, acc, [] => [String.mk acc.reverse]
  | true, _, c :: cs =>
    if c = ' ' then splitSpaceGo true [] cs else splitSpaceGo false [c] cs
  | false, acc, c :: cs =>
    if c = ' ' then String.mk acc.reverse :: splitSpaceGo true [] cs
    else splitSpaceGo false (c :: acc) cs

/-- JavaScript's `value.split(/ +/)`: split on maximal runs of U+0020 spaces.
A leading (resp. trailing) run contributes a leading (resp. trailing) empty
chunk, and `"".split(/ +/)` is `[""]`. -/
def splitSpaceRuns (s : String) : List String := splitSpaceGo false [] s.data

/-- The attribute matcher registry (`matchers` in the source), keyed by the
six operators.  String operations are embedded on the underlying character
lists: `===` is `==`, `startsWith`/`endsWith` are list prefix/suffix tests,
`includes` is the infix test, and `split(/ +/)` is `splitSpaceRuns`. -/
def matchers (m : AttrMatcher) (value expected : String) : Bool :=
  match m with
  | .Equals => value == expected
  | .Includes => (splitSpaceRuns value).contains expected
  | .DashMatch => value == expected || (expected ++ "-").data.isPrefixOf value.data
  | .PrefixMatch => expected.data.isPrefixOf value.data
  | .SuffixMatch => expected.data.isSuffixOf value.data
  | .SubstringMatch => value.data.tails.any (fun t => expected.data.isPrefixOf t)

/-- The `while (t) { if unseen then push; t = next(t) }` loop shared by the
descendant and subsequent-sibling collectors.  `acc` is both the output array
and the call's deduplicator (in the source the `WeakSet` and the array always
hold the same nodes).  `fuel` bounds the number of loop iterations. -/
def chainCollect {T : Type} [DecidableEq T] (next : T → Option T) :
    Nat → Option T → List T → List T
  | _, none, acc => acc
  | 0, some _, acc => acc
  | fuel + 1, some t, acc =>
    chainCollect next fuel (next t) (if t ∈ acc then acc else acc ++ [t])

/-- Push an optional node onto the accumulator unless it is absent or already
present (the `if (x) { if (!dedup.has(x)) push }` pattern). -/
def pushIfNew {T : Type} [DecidableEq T] (acc : List T) : Option T → List T
  | none => acc
  | some t => if t ∈ acc then acc else acc ++ [t]

/-- `collectors[Descendant]`: all strict ancestors of every candidate, one
deduplicator for the whole call. -/
def descendantCollector {T : Type} [DecidableEq T] (ops : Operations T)
    (fuel : Nat) (nodes : List T) : List T :=
  nodes.foldl (fun acc node => chainCollect ops.getParent fuel (ops.getParent node) acc) []

/-- `collectors[Child]`: the direct parent of every candidate. -/
def childCollector {T : Type} [DecidableEq T] (ops : Operations T)
    (nodes : List T) : List T :=
  nodes.foldl (fun acc node => pushIfNew acc (ops.getParent node)) []

/-- `collectors[NextSibling]`: the immediately preceding sibling of every
candidate. -/
def nextSiblingCollector {T : Type} [DecidableEq T] (ops : Operations T)
    (nodes : List T) : List T :=
  nodes.foldl (fun acc node => pushIfNew acc (ops.getPreviouSibling node)) []

/-- `collectors[SubsequentSibling]`: all preceding siblings of every
candidate, one deduplicator for the whole call. -/
def subsequentSiblingCollector {T : Type} [DecidableEq T] (ops : Operations T)
    (fuel : Nat) (nodes : List T) : List T :=
  nodes.foldl
    (fun acc node => chainCollect ops.getPreviouSibling fuel (ops.getPreviouSibling node) acc) []

/-- The collector dispatch `collectors[combinator](candidates)`; the column
combinator entry throws. -/
def collectors {T : Type} [DecidableEq T] (ops : Operations T) (fuel : Nat)
    (k : CombinatorKind) (nodes : List T) : Except QueryError (List T) :=
  match k with
  | .Descendant => .ok (descendantCollector ops fuel nodes)
  | .Child => .ok (childCollector ops nodes)
  | .NextSibling => .ok (nextSiblingCollector ops nodes)
  | .SubsequentSibling => .ok (subsequentSiblingCollector ops fuel nodes)
  | .Column => .error .unsupportedCombinator

/-- Worker for the traversal generator, recursing through the supplied
`getChildren` capability; `fuel` bounds the recursion depth. -/
def preorderGo {T : Type} (children : T → List T) : Nat → T → Bool → List T
  | 0, _, _ => []
  | fuel + 1, node, includeRoot =>
    (if includeRoot then [node] else []) ++
      (children node).flatMap (fun c => preorderGo children fuel c true)

/-- `preorderDepthFirstTraverse(node, includeRoot = false)`: the node itself
(when included) followed by the preorder traversals of its children in
order. -/
def preorderDepthFirstTraverse {T : Type} (ops : Operations T) (fuel : Nat)
    (node : T) (includeRoot : Bool := false) : List T :=
  preorderGo ops.getChildren fuel node includeRoot

/-- `matchSubClassSelector(node, selector)`: dispatch on the selector kind.
ID compares against the adapter's id, class delegates to the adapter,
attribute selectors check existence or apply the registered matcher,
pseudo-classes are an always-true placeholder and pseudo-elements always
fail. -/
def matchSubClassSelector {T : Type} (ops : Operations T) (node : T) :
    SubclassSelector → Bool
  | .idSel v => ops.getID node == v
  | .classSel v => ops.hasClass node v
  | .attrSel name m =>
    let value := ops.getAttribute node name
    match m with
    | none => value.isSome
    | some am =>
      match value with
      | none => false
      | some v => matchers am.matcher v am.value
  | .pseudoClassSel _ => true
  | .pseudoElementSel _ => false

/-- `matchCompoundSelector(root, {type, subclasses, pseudoes})`: the type
selector (when present) must match the tag name case-insensitively, then
every subclass selector and every pseudo selector must succeed (the source's
early `return false`s become short-circuiting `&&` / `List.all`). -/
def matchCompoundSelector {T : Type} (ops : Operations T) (root : T)
    (c : CompoundSelector) : Bool :=
  (match c.type with
   | some ty => upperStr (ops.getTagName root) == upperStr ty
   | none => true) &&
  (match c.subclasses with
   | some sels => sels.all (fun s => matchSubClassSelector ops root s)
   | none => true) &&
  (match c.pseudoes with
   | some sels => sels.all (fun s => matchSubClassSelector ops root s)
   | none => true)

/-- The `for (let i = tail.length - 1; i >= 0; i -= 1)` loop of
`matchComplexSelector`, taking the tail pairs already reversed (so the list is
consumed from the last pair to the first).  `.ok none` encodes the early
`return false` on an empty filtered set; otherwise the candidate set is
replaced by the collector's output. -/
def complexLoop {T : Type} [DecidableEq T] (ops : Operations T) (fuel : Nat) :
    List (CombinatorKind × CompoundSelector) → List T →
      Except QueryError (Option (List T))
  | [], cands => .ok (some cands)
  | (comb, sel) :: rest, cands =>
    let filtered := cands.filter (fun t => matchCompoundSelector ops t sel)
    if filtered.isEmpty then .ok none
    else
      match collectors ops fuel comb filtered with
      | .error e => .error e
      | .ok next => complexLoop ops fuel rest next

/-- `matchComplexSelector(root, {head, tail})`: run the right-to-left loop
starting from `[root]`, then filter the surviving candidates by the head
compound selector; the node matches iff that final set is non-empty. -/
def matchComplexSelector {T : Type} [DecidableEq T] (ops : Operations T)
    (fuel : Nat) (root : T) (sel : ComplexSelector) : Except QueryError Bool :=
  match complexLoop ops fuel sel.tail.reverse [root] with
  | .error e => .error e
  | .ok none => .ok false
  | .ok (some cands) =>
    .ok (!(cands.filter (fun t => matchCompoundSelector ops t sel.head)).isEmpty)

/-- `matchSelectors(root, selectors)`: try each member complex selector in
order, returning on the first success (errors propagate). -/
def matchSelectors {T : Type} [DecidableEq T] (ops : Operations T) (fuel : Nat)
    (root : T) : List ComplexSelector → Except QueryError Bool
  | [] => .ok false
  | sel :: rest =>
    match matchComplexSelector ops fuel root sel with
    | .error e => .error e
    | .ok true => .ok true
    | .ok false => matchSelectors ops fuel root rest

/-- Whether `matchSelectors` succeeds without error on this node. -/
def matchesOk {T : Type} [DecidableEq T] (ops : Operations T) (fuel : Nat)
    (root : T) (sels : List ComplexSelector) : Bool :=
  match matchSelectors ops fuel root sels with
  | .ok true => true
  | _ => false

/-- The `for ... of` loop of `querySelector`: return the first visited node
the selector list matches, or `none`. -/
def queryFirstLoop {T : Type} [DecidableEq T] (ops : Operations T) (fuel : Nat)
    (sels : List ComplexSelector) : List T → Except QueryError (Option T)
  | [] => .ok none
  | n :: rest =>
    match matchSelectors ops fuel n sels with
    | .error e => .error e
    | .ok true => .ok (some n)
    | .ok false => queryFirstLoop ops fuel sels rest

/-- The `for ... of` loop of `querySelectorAll`: push every visited node the
selector list matches. -/
def queryAllLoop {T : Type} [DecidableEq T] (ops : Operations T) (fuel : Nat)
    (sels : List ComplexSelector) : List T → List T → Except QueryError (List T)
  | [], acc => .ok acc
  | n :: rest, acc =>
    match matchSelectors ops fuel n sels with
    | .error e => .error e
    | .ok true => queryAllLoop ops fuel sels rest (acc ++ [n])
    | .ok false => queryAllLoop ops fuel sels rest acc

/-- `querySelector(root, selectors)`: parse, then scan the preorder traversal
of `root` (excluding `root` itself) for the first match.  The external parser
`S.parse` is passed in as the function `parseF`. -/
def querySelector {T : Type} [DecidableEq T] (ops : Operations T) (fuel : Nat)
    (parseF : String → List ComplexSelector) (root : T) (selectors : String) :
    Except QueryError (Option T) :=
  queryFirstLoop ops fuel (parseF selectors)
    (preorderDepthFirstTraverse ops fuel root false)

/-- `querySelectorAll(root, selectors)`: parse, then collect every match along
the preorder traversal of `root` (excluding `root` itself). -/
def querySelectorAll {T : Type} [DecidableEq T] (ops : Operations T) (fuel : Nat)
    (parseF : String → List ComplexSelector) (root : T) (selectors : String) :
    Except QueryError (List T) :=
  queryAllLoop ops fuel (parseF selectors)
    (preorderDepthFirstTraverse ops fuel root false) []

/-!
## The document model

The adapter is trusted to present a finite acyclic tree.  We model such a
document as an inductive tree `DTree`, and a node handle as the *path* (list
of child indexes) leading from the document root to the node.  Distinct
positions are distinct handles, so path equality is exactly the node identity
used by the source's `WeakSet` deduplicators, and `treeOps` below derives the
nine adapter capabilities from a document.
-/

/-- The per-node payload of a document node. -/
structure NodeData where
  tag : String
  idStr : String
  classes : List String
  attrs : List (String × String)
  deriving DecidableEq, Repr

/-- A finite document tree. -/
inductive DTree where
  | node : NodeData → List DTree → DTree
  deriving Repr

/-- The payload of the root node of a tree. -/
def DTree.data : DTree → NodeData
  | .node d _ => d

/-- The child subtrees of the root node of a tree. -/
def DTree.children : DTree → List DTree
  | .node _ cs => cs

mutual

/-- Number of nodes of a tree. -/
def DTree.size : DTree → Nat
  | .node _ cs => 1 + DTree.sizeL cs

/-- Total number of nodes of a list of trees. -/
def DTree.sizeL : List DTree → Nat
  | [] => 0
  | c :: cs => DTree.size c + DTree.sizeL cs

end

mutual

/-- Height of a tree (a single node has height 1). -/
def DTree.height : DTree → Nat
  | .node _ cs => DTree.heightL cs + 1

/-- Maximum height over a list of trees. -/
def DTree.heightL : List DTree → Nat
  | [] => 0
  | c :: cs => max (DTree.height c) (DTree.heightL cs)

end

/-- The subtree reached from `t` by following the child indexes in `p`. -/
def subtreeAt : DTree → List Nat → Option DTree
  | t, [] => some t
  | t, i :: p =>
    match t.children[i]? with
    | none => none
    | some c => subtreeAt c p

/-- A path is valid in `doc` when it reaches a node. -/
def ValidPath (doc : DTree) (p : List Nat) : Prop := (subtreeAt doc p).isSome = true

instance (doc : DTree) (p : List Nat) : Decidable (ValidPath doc p) := by
  unfold ValidPath; infer_instance

/-- First-match lookup in an attribute list (JavaScript `getAttribute`). -/
def lookupAttr (name : String) : List (String × String) → Option String
  | [] => none
  | (k, v) :: rest => if k = name then some v else lookupAttr name rest

/-- The previous-sibling path: decrement the last index, absent at index 0 or
at the root. -/
def prevSiblingPath (p : List Nat) : Option (List Nat) :=
  match p.getLast? with
  | none => none
  | some 0 => none
  | some (i + 1) => some (p.dropLast ++ [i])

/-- The nine capabilities derived from a document, for path-identified
nodes. -/
def treeOps (doc : DTree) : Operations (List Nat) where
  getTagName p :=
    match subtreeAt doc p with
    | some t => t.data.tag
    | none => ""
  getContent _ := ""
  getID p :=
    match subtreeAt doc p with
    | some t => t.data.idStr
    | none => ""
  hasClass p c :=
    match subtreeAt doc p with
    | some t => t.data.classes.contains c
    | none => false
  getParent p :=
    match p with
    | [] => none
    | _ :: _ => some p.dropLast
  getChildren p :=
    match subtreeAt doc p with
    | some t => (List.range t.children.length).map (fun i => p ++ [i])
    | none => []
  getAttribute p name :=
    match subtreeAt doc p with
    | some t => lookupAttr name t.data.attrs
    | none => none
  getPreviouSibling p := prevSiblingPath p
  getNextSibling p :=
    match p.getLast? with
    | none => none
    | some i =>
      let q := p.dropLast ++ [i + 1]
      if (subtreeAt doc q).isSome then some q else none

mutual

/-- Canonical preorder enumeration of all node paths of a tree (the root is
`[]`, listed first). -/
def preorderPaths : DTree → List (List Nat)
  | .node _ cs => [] :: preorderPathsL 0 cs

/-- Canonical preorder paths of a list of sibling subtrees, the first carrying
index `i`. -/
def preorderPathsL : Nat → List DTree → List (List Nat)
  | _, [] => []
  | i, c :: cs => (preorderPaths c).map (fun q => i :: q) ++ preorderPathsL (i + 1) cs

end

/-- The preorder visit sequence of a document excluding the document root
itself: what a query traverses. -/
def preorderExcl (doc : DTree) : List (List Nat) := preorderPathsL 0 doc.children

/-- The strict-ancestor relation on paths: `x` is a strict ancestor of `n`. -/
def isStrictAncestorPath (x n : List Nat) : Prop := x <+: n ∧ x ≠ n

/-- `x` is the direct parent of `n`. -/
def isParentPath (x n : List Nat) : Prop := ∃ i, n = x ++ [i]

/-- `x` is the immediately preceding sibling of `n`. -/
def isImmediatePrevSiblingPath (x n : List Nat) : Prop :=
  ∃ q i, x = q ++ [i] ∧ n = q ++ [i + 1]

/-- `x` is a preceding sibling of `n` (same parent, smaller index). -/
def isPrecedingSiblingPath (x n : List Nat) : Prop :=
  ∃ q i j, i < j ∧ x = q ++ [i] ∧ n = q ++ [j]

/-- The bare `getParent`-style chain from a starting point, without
deduplication: the nodes the collector loops visit, in visit order. -/
def chainElems {T : Type} (next : T → Option T) : Nat → Option T → List T
  | _, none => []
  | 0, some _ => []
  | fuel + 1, some t => t :: chainElems next fuel (next t)

/-- The strict ancestors of a path, nearest first. -/
def ancestorsOf (p : List Nat) : List (List Nat) :=
  match p with
  | [] => []
  | x :: rest => (x :: rest).dropLast :: ancestorsOf ((x :: rest).dropLast)
termination_by p.length
decreasing_by simp [List.length_dropLast]

/-- The preceding siblings of `q ++ [j]`, nearest first. -/
def prevChain (q : List Nat) : Nat → List (List Nat)
  | 0 => []
  | j + 1 => (q ++ [j]) :: prevChain q j

deriving instance DecidableEq for Except

/-!
## Specification-side notions

The following definitions restate, in the specification's vocabulary, what
the engine is claimed to compute; the theorems below relate them to the
engine's functions.
-/

/-- The condition a single subclass selector imposes on a node, in the
specification's words: ID is exact equality against the adapter's id, class
delegates to the adapter's membership test, an attribute selector with no
operator requires the attribute to exist, one with an operator requires the
attribute to exist and the registered matcher to hold on (value, expected);
pseudo-class selectors impose nothing and pseudo-element selectors are
unsatisfiable. -/
def subclassHolds {T : Type} (ops : Operations T) (node : T) :
    SubclassSelector → Prop
  | .idSel v => ops.getID node = v
  | .classSel v => ops.hasClass node v = true
  | .attrSel name none => (ops.getAttribute node name).isSome = true
  | .attrSel name (some am) =>
    ∃ v, ops.getAttribute node name = some v ∧ matchers am.matcher v am.value = true
  | .pseudoClassSel _ => True
  | .pseudoElementSel _ => False

theorem matchSubClassSelector_iff {T : Type} (ops : Operations T) (node : T)
    (s : SubclassSelector) :
    matchSubClassSelector ops node s = true ↔ subclassHolds ops node s := by
  cases s with
  | idSel v => simp [matchSubClassSelector, subclassHolds]
  | classSel v => simp [matchSubClassSelector, subclassHolds]
  | attrSel name m =>
    cases m with
    | none => simp [matchSubClassSelector, subclassHolds]
    | some am =>
      simp only [matchSubClassSelector, subclassHolds]
      cases h : ops.getAttribute node name <;> simp [h]
  | pseudoClassSel v => simp [matchSubClassSelector, subclassHolds]
  | pseudoElementSel v => simp [matchSubClassSelector, subclassHolds]

/-- C5: `matchCompoundSelector` returns `true` exactly when the type selector
(when present) matches the node's tag name case-insensitively, every subclass
selector individually succeeds (ID exact equality, class membership via the
adapter, attribute existence / registered matcher), every pseudo-class
selector trivially succeeds and no pseudo-element selector is present among
the constraints (pseudo-element selectors always fail). -/
theorem claim_C5_matchCompound_iff {T : Type} (ops : Operations T) (node : T)
    (c : CompoundSelector) :
    matchCompoundSelector ops node c = true ↔
      ((∀ ty ∈ c.type, upperStr (ops.getTagName node) = upperStr ty) ∧
       (∀ s ∈ c.subclasses.getD [], subclassHolds ops node s) ∧
       (∀ s ∈ c.pseudoes.getD [], subclassHolds ops node s)) := by
  obtain ⟨ty, subs, ps⟩ := c
  simp only [matchCompoundSelector]
  cases ty <;> cases subs <;> cases ps <;>
    simp [List.all_eq_true, matchSubClassSelector_iff, beq_iff_eq, and_assoc]

/-- Specification-side step for one (combinator, compound) tail pair: filter
the current candidate set by the pair's compound selector; an empty filtered
set short-circuits the whole match to failure (`some` is lost, encoded
`ok none`); otherwise the candidate set is replaced by the combinator
collector's output.  Errors and earlier failure propagate unchanged. -/
def specTailStep {T : Type} [DecidableEq T] (ops : Operations T) (fuel : Nat)
    (pair : CombinatorKind × CompoundSelector) :
    Except QueryError (Option (List T)) → Except QueryError (Option (List T))
  | .error e => .error e
  | .ok none => .ok none
  | .ok (some cands) =>
    let filtered := cands.filter (fun t => matchCompoundSelector ops t pair.2)
    if filtered.isEmpty then .ok none
    else
      match collectors ops fuel pair.1 filtered with
      | .error e => .error e
      | .ok next => .ok (some next)

/-- Specification-side complex-selector matcher: starting from the candidate
set `{node}`, process the tail pairs from last to first (a right fold of
`specTailStep`), then filter the surviving set by the head compound selector;
the node matches iff some surviving candidate satisfies the head. -/
def specMatchComplex {T : Type} [DecidableEq T] (ops : Operations T)
    (fuel : Nat) (root : T) (sel : ComplexSelector) : Except QueryError Bool :=
  match sel.tail.foldr (specTailStep ops fuel) (.ok (some [root])) with
  | .error e => .error e
  | .ok none => .ok false
  | .ok (some cands) =>
    .ok (decide (∃ t ∈ cands, matchCompoundSelector ops t sel.head = true))

theorem foldl_specTailStep_error {T : Type} [DecidableEq T]
    (ops : Operations T) (fuel : Nat) (e : QueryError)
    (l : List (CombinatorKind × CompoundSelector)) :
    l.foldl (fun st pair => specTailStep ops fuel pair st) (.error e) = .error e := by
  induction l with
  | nil => rfl
  | cons p rest ih => exact ih

theorem foldl_specTailStep_none {T : Type} [DecidableEq T]
    (ops : Operations T) (fuel : Nat)
    (l : List (CombinatorKind × CompoundSelector)) :
    l.foldl (fun st pair => specTailStep ops fuel pair st) (.ok none) = .ok none := by
  induction l with
  | nil => rfl
  | cons p rest ih => exact ih

theorem specTailStep_ok_some {T : Type} [DecidableEq T] (ops : Operations T)
    (fuel : Nat) (comb : CombinatorKind) (sel : CompoundSelector) (cands : List T) :
    specTailStep ops fuel (comb, sel) (Except.ok (some cands)) =
      (if (cands.filter (fun t => matchCompoundSelector ops t sel)).isEmpty then Except.ok none
       else
         match collectors ops fuel comb (cands.filter (fun t => matchCompoundSelector ops t sel)) with
         | .error e => .error e
         | .ok next => Except.ok (some next)) := rfl

theorem complexLoop_cons {T : Type} [DecidableEq T] (ops : Operations T)
    (fuel : Nat) (comb : CombinatorKind) (sel : CompoundSelector)
    (rest : List (CombinatorKind × CompoundSelector)) (cands : List T) :
    complexLoop ops fuel ((comb, sel) :: rest) cands =
      (if (cands.filter (fun t => matchCompoundSelector ops t sel)).isEmpty then Except.ok none
       else
         match collectors ops fuel comb (cands.filter (fun t => matchCompoundSelector ops t sel)) with
         | .error e => .error e
         | .ok next => complexLoop ops fuel rest next) := rfl

theorem complexLoop_eq_foldl {T : Type} [DecidableEq T] (ops : Operations T)
    (fuel : Nat) (l : List (CombinatorKind × CompoundSelector)) (cands : List T) :
    complexLoop ops fuel l cands =
      l.foldl (fun st pair => specTailStep ops fuel pair st) (.ok (some cands)) := by
  induction l generalizing cands with
  | nil => rfl
  | cons p rest ih =>
    obtain ⟨comb, sel⟩ := p
    show complexLoop ops fuel ((comb, sel) :: rest) cands =
      List.foldl (fun st pair => specTailStep ops fuel pair st)
        (specTailStep ops fuel (comb, sel) (Except.ok (some cands))) rest
    rw [complexLoop_cons, specTailStep_ok_some]
    cases hemp : (cands.filter (fun t => matchCompoundSelector ops t sel)).isEmpty with
    | true =>
      rw [if_pos rfl, if_pos rfl, foldl_specTailStep_none]
    | false =>
      have hft : ¬((false : Bool) = true) := by simp
      rw [if_neg hft, if_neg hft]
      cases hcol :
          collectors ops fuel comb
            (cands.filter (fun t => matchCompoundSelector ops t sel)) with
      | error e => rw [foldl_specTailStep_error]
      | ok next => exact ih next

/-- C3: the engine's complex-selector matcher is exactly the right-to-left
procedure of the specification: starting from the candidate set `{node}`,
each (combinator, compound) tail pair, from last to first, filters the
current set by its compound selector (an empty filtered set fails the whole
match immediately), then replaces the set by the combinator collector's
output; after the tail the set is filtered by the head compound selector, and
the node matches iff that final filtered set is non-empty. -/
theorem claim_C3_matchComplex_right_to_left {T : Type} [DecidableEq T]
    (ops : Operations T) (fuel : Nat) (root : T) (sel : ComplexSelector) :
    matchComplexSelector ops fuel root sel = specMatchComplex ops fuel root sel := by
  unfold matchComplexSelector specMatchComplex
  rw [complexLoop_eq_foldl, List.foldl_reverse]
  cases h : sel.tail.foldr (specTailStep ops fuel) (.ok (some [root])) with
  | error e => rfl
  | ok o =>
    cases o with
    | none => rfl
    | some cands =>
      show Except.ok (!(cands.filter (fun t => matchCompoundSelector ops t sel.head)).isEmpty) =
        Except.ok (decide (∃ t ∈ cands, matchCompoundSelector ops t sel.head = true))
      congr 1
      rw [Bool.eq_iff_iff]
      simp [List.isEmpty_iff, List.filter_eq_nil_iff]

theorem queryAllLoop_first_rel {T : Type} [DecidableEq T] (ops : Operations T)
    (fuel : Nat) (sels : List ComplexSelector) :
    ∀ (visited acc l : List T),
      queryAllLoop ops fuel sels visited acc = .ok l →
        ∃ m, l = acc ++ m ∧ queryFirstLoop ops fuel sels visited = .ok m.head? := by
  intro visited
  induction visited with
  | nil =>
    intro acc l h
    refine ⟨[], ?_, rfl⟩
    simp only [queryAllLoop] at h
    cases h
    simp
  | cons n rest ih =>
    intro acc l h
    simp only [queryAllLoop] at h
    cases hm : matchSelectors ops fuel n sels with
    | error e => rw [hm] at h; cases h
    | ok b =>
      rw [hm] at h
      cases b with
      | true =>
        obtain ⟨m', hm', hfirst⟩ := ih (acc ++ [n]) l h
        refine ⟨n :: m', by simpa using hm', ?_⟩
        simp only [queryFirstLoop, hm, List.head?]
      | false =>
        obtain ⟨m', hm', hfirst⟩ := ih acc l h
        refine ⟨m', hm', ?_⟩
        simpa only [queryFirstLoop, hm] using hfirst

/-- C2: whenever `querySelectorAll` produces a result sequence `l`,
`querySelector` (same root, same selector string) returns exactly the first
element of `l`, and it returns the absence value iff `l` is empty. -/
theorem claim_C2_querySelector_head {T : Type} [DecidableEq T]
    (ops : Operations T) (fuel : Nat) (parseF : String → List ComplexSelector)
    (root : T) (s : String) (l : List T)
    (h : querySelectorAll ops fuel parseF root s = .ok l) :
    querySelector ops fuel parseF root s = .ok l.head? ∧
      (querySelector ops fuel parseF root s = .ok none ↔ l = []) := by
  unfold querySelectorAll at h
  obtain ⟨m, hm, hfirst⟩ :=
    queryAllLoop_first_rel ops fuel (parseF s)
      (preorderDepthFirstTraverse ops fuel root false) [] l h
  simp only [List.nil_append] at hm
  subst hm
  have h1 : querySelector ops fuel parseF root s = .ok l.head? := hfirst
  refine ⟨h1, ?_⟩
  constructor
  · intro hh
    rw [h1] at hh
    simp only [Except.ok.injEq] at hh
    exact List.head?_eq_none_iff.mp hh
  · intro hh
    subst hh
    exact h1

/-- A small example document used to instantiate the theorems:
`BODY > (DIV.container[data-x="foo bar"] > SPAN#x.bad), P`. -/
def exDoc : DTree :=
  .node ⟨"BODY", "", [], []⟩
    [ .node ⟨"DIV", "", ["container"], [("data-x", "foo bar")]⟩
        [ .node ⟨"SPAN", "x", ["bad"], []⟩ [] ],
      .node ⟨"P", "", [], []⟩ [] ]

/-- A parse function mapping every string to the selector list `div`. -/
def pfDiv : String → List ComplexSelector :=
  fun _ => [⟨⟨some "div", none, none⟩, []⟩]

theorem claim_C2_witness :
    querySelector (treeOps exDoc) 9 pfDiv [] "div" = .ok ([[0]] : List (List Nat)).head? ∧
      (querySelector (treeOps exDoc) 9 pfDiv [] "div" = .ok none ↔
        ([[0]] : List (List Nat)) = []) :=
  claim_C2_querySelector_head (treeOps exDoc) 9 pfDiv [] "div" [[0]] (by decide)

theorem matchSelectors_error_of_member {T : Type} [DecidableEq T]
    (ops : Operations T) (fuel : Nat) (node : T) (e : QueryError)
    (s : ComplexSelector) :
    ∀ (pre post : List ComplexSelector),
      (∀ m ∈ pre, matchComplexSelector ops fuel node m = .ok false) →
      matchComplexSelector ops fuel node s = .error e →
      matchSelectors ops fuel node (pre ++ s :: post) = .error e := by
  intro pre
  induction pre with
  | nil =>
    intro post _ hs
    simp only [List.nil_append, matchSelectors]
    rw [hs]
  | cons m pre' ih =>
    intro post hpre hs
    simp only [List.cons_append, matchSelectors]
    rw [hpre m (List.mem_cons_self m pre')]
    exact ih post (fun x hx => hpre x (List.mem_cons_of_mem m hx)) hs

theorem queryAllLoop_error {T : Type} [DecidableEq T] (ops : Operations T)
    (fuel : Nat) (sels : List ComplexSelector) (n : T) (e : QueryError) :
    ∀ (l1 l2 acc : List T),
      (∀ x ∈ l1, (matchSelectors ops fuel x sels).isOk = true) →
      matchSelectors ops fuel n sels = .error e →
      queryAllLoop ops fuel sels (l1 ++ n :: l2) acc = .error e := by
  intro l1
  induction l1 with
  | nil =>
    intro l2 acc _ hn
    simp only [List.nil_append, queryAllLoop]
    rw [hn]
  | cons x l1' ih =>
    intro l2 acc hl1 hn
    simp only [List.cons_append, queryAllLoop]
    cases hx : matchSelectors ops fuel x sels with
    | error e' =>
      have := hl1 x (List.mem_cons_self x l1')
      rw [hx] at this
    | ok b =>
      cases b with
      | true => exact ih l2 (acc ++ [x]) (fun y hy => hl1 y (List.mem_cons_of_mem x hy)) hn
      | false => exact ih l2 acc (fun y hy => hl1 y (List.mem_cons_of_mem x hy)) hn

/-- C7: the column combinator raises the unsupported-feature error whenever
its matching path is reached.  (1) If the members of a selector list before
some member `s` do not match a node and `s`'s evaluation errors, the whole
list's evaluation errors, regardless of the members after `s` (in
particular of any that would match on their own).  (2) An error is in fact
reached whenever the last tail pair of a member carries the column
combinator and its compound selector accepts the candidate node.  (3) The
error propagates through `querySelectorAll` as soon as the first visited
node whose evaluation is not error-free errors. -/
theorem claim_C7_column_unsupported_error {T : Type} [DecidableEq T] :
    (∀ (ops : Operations T) (fuel : Nat) (node : T)
        (pre post : List ComplexSelector) (s : ComplexSelector) (e : QueryError),
        (∀ m ∈ pre, matchComplexSelector ops fuel node m = .ok false) →
        matchComplexSelector ops fuel node s = .error e →
        matchSelectors ops fuel node (pre ++ s :: post) = .error e) ∧
    (∀ (ops : Operations T) (fuel : Nat) (node : T) (hd csel : CompoundSelector)
        (tl : List (CombinatorKind × CompoundSelector)),
        matchCompoundSelector ops node csel = true →
        matchComplexSelector ops fuel node
            ⟨hd, tl ++ [(CombinatorKind.Column, csel)]⟩ =
          .error .unsupportedCombinator) ∧
    (∀ (ops : Operations T) (fuel : Nat) (parseF : String → List ComplexSelector)
        (root : T) (str : String) (l1 l2 : List T) (n : T) (e : QueryError),
        preorderDepthFirstTraverse ops fuel root false = l1 ++ n :: l2 →
        (∀ x ∈ l1, (matchSelectors ops fuel x (parseF str)).isOk = true) →
        matchSelectors ops fuel n (parseF str) = .error e →
        querySelectorAll ops fuel parseF root str = .error e) := by
  refine ⟨?_, ?_, ?_⟩
  · intro ops fuel node pre post s e hpre hs
    exact matchSelectors_error_of_member ops fuel node e s pre post hpre hs
  · intro ops fuel node hd csel tl hmatch
    unfold matchComplexSelector
    have hrev : (⟨hd, tl ++ [(CombinatorKind.Column, csel)]⟩ : ComplexSelector).tail.reverse =
        (CombinatorKind.Column, csel) :: tl.reverse := by simp
    rw [hrev, complexLoop_cons]
    have hfil : ([node].filter (fun t => matchCompoundSelector ops t csel)) = [node] := by
      simp [hmatch]
    rw [hfil]
    simp [collectors]
  · intro ops fuel parseF root str l1 l2 n e htrav hl1 hn
    unfold querySelectorAll
    rw [htrav]
    exact queryAllLoop_error ops fuel (parseF str) n e l1 l2 [] hl1 hn

/-- The universal compound selector (no constraints). -/
def univC : CompoundSelector := ⟨none, none, none⟩

/-- The complex selector `* || *`. -/
def colOnly : ComplexSelector := ⟨univC, [(CombinatorKind.Column, univC)]⟩

/-- The complex selector `div`. -/
def divSel : ComplexSelector := ⟨⟨some "div", none, none⟩, []⟩

theorem claim_C7_witness :
    matchSelectors (treeOps exDoc) 9 [0] ([] ++ colOnly :: [divSel]) =
        .error .unsupportedCombinator ∧
    matchComplexSelector (treeOps exDoc) 9 [0]
        ⟨univC, [(CombinatorKind.Column, univC)]⟩ = .error .unsupportedCombinator ∧
    querySelectorAll (treeOps exDoc) 9 (fun _ => [colOnly]) [] "a||b" =
        .error .unsupportedCombinator :=
  ⟨(claim_C7_column_unsupported_error (T := List Nat)).1 (treeOps exDoc) 9 [0] [] [divSel]
      colOnly .unsupportedCombinator (by simp) (by decide),
   (claim_C7_column_unsupported_error (T := List Nat)).2.1 (treeOps exDoc) 9 [0] univC univC []
      (by decide),
   (claim_C7_column_unsupported_error (T := List Nat)).2.2 (treeOps exDoc) 9
      (fun _ => [colOnly]) [] "a||b" [] [[0, 0], [1]] [0] .unsupportedCombinator
      (by decide) (by simp) (by decide)⟩

/-- Worker for `specWhitespaceWords`: collect maximal nonempty runs of
non-whitespace characters. -/
def wordsGo : List Char → List Char → List String
  | acc, [] => if acc.isEmpty then [] else [String.mk acc.reverse]
  | acc, c :: cs =>
    if c.isWhitespace then
      (if acc.isEmpty then wordsGo [] cs else String.mk acc.reverse :: wordsGo [] cs)
    else wordsGo (c :: acc) cs

/-- The value read as a whitespace-separated word list, following the
specification's words for the `~=` operator: the words are the maximal
nonempty runs of non-whitespace characters. -/
def specWhitespaceWords (s : String) : List String := wordsGo [] s.data

/-- C6 counterexample: on the value `"a\tb"` (tab-separated) with expected
word `"a"`, the whitespace-separated word list reading contains the word
`"a"`, yet the registry's `~=` matcher (which splits on runs of U+0020
spaces only) rejects, so the claim's description of `~=` does not hold of
the code as stated. -/
theorem claim_C6_counterexample :
    matchers AttrMatcher.Includes "a\tb" "a" = false ∧
    "a" ∈ specWhitespaceWords "a\tb" ∧
    ¬(matchers AttrMatcher.Includes "a\tb" "a" = true ↔
        "a" ∈ specWhitespaceWords "a\tb") := by
  refine ⟨by decide, by decide, ?_⟩
  intro h
  exact absurd (h.mpr (by decide)) (by decide)

/-- C6 (amended): the six attribute matchers implement the table with `~=`
reading the value as the list of chunks obtained by splitting on runs of
U+0020 spaces (a leading or trailing run contributing an empty chunk, the
empty value giving the single chunk `""`), not on general whitespace:
`=` is exact equality, `|=` is equality or the expected value followed by
`"-"` as a prefix, `^=`/`$=`/`*=` are prefix/suffix/substring tests; no
operator special-cases an empty expected value (in particular `^=`, `$=`,
`*=` accept every value when the expected string is empty); and the claim's
concrete examples on the value `"foo bar"` hold. -/
theorem claim_C6_amended_matchers :
    (∀ v e : String, matchers .Equals v e = true ↔ v = e) ∧
    (∀ v e : String, matchers .Includes v e = true ↔ e ∈ splitSpaceRuns v) ∧
    (∀ v e : String,
      matchers .DashMatch v e = true ↔ (v = e ∨ (e ++ "-").data <+: v.data)) ∧
    (∀ v e : String, matchers .PrefixMatch v e = true ↔ e.data <+: v.data) ∧
    (∀ v e : String, matchers .SuffixMatch v e = true ↔ e.data <:+ v.data) ∧
    (∀ v e : String, matchers .SubstringMatch v e = true ↔ e.data <:+: v.data) ∧
    (∀ v : String,
      matchers .PrefixMatch v "" = true ∧ matchers .SuffixMatch v "" = true ∧
        matchers .SubstringMatch v "" = true) ∧
    (matchers .Includes "foo bar" "foo" = true ∧
     matchers .Includes "foo bar" "foo bar" = false ∧
     matchers .PrefixMatch "foo bar" "fo" = true ∧
     matchers .SuffixMatch "foo bar" "ar" = true ∧
     matchers .SubstringMatch "foo bar" "o b" = true ∧
     matchers .Equals "foo bar" "foo" = false) := by
  have hsub : ∀ v e : String, matchers .SubstringMatch v e = true ↔ e.data <:+: v.data := by
    intro v e
    simp only [matchers, List.any_eq_true, List.mem_tails,
      List.isPrefixOf_iff_prefix]
    rw [List.infix_iff_prefix_suffix]
    constructor
    · rintro ⟨t, ht, hp⟩; exact ⟨t, hp, ht⟩
    · rintro ⟨t, hp, ht⟩; exact ⟨t, ht, hp⟩
  refine ⟨?_, ?_, ?_, ?_, ?_, hsub, ?_, ?_⟩
  · intro v e; simp [matchers]
  · intro v e; simp [matchers, List.elem_iff, List.contains]
  · intro v e; simp [matchers, List.isPrefixOf_iff_prefix]
  · intro v e; simp [matchers, List.isPrefixOf_iff_prefix]
  · intro v e; simp [matchers, List.isSuffixOf_iff_suffix]
  · intro v
    refine ⟨?_, ?_, ?_⟩
    · simp [matchers, List.isPrefixOf_iff_prefix]
    · simp [matchers, List.isSuffixOf_iff_suffix]
    · rw [hsub]; simp
  · exact ⟨by decide, by decide, by decide, by decide, by decide, by decide⟩

/-- Two adapters agree on the seven capabilities the engine consults
(everything except `getContent` and `getNextSibling`). -/
def agreesOnSeven {T : Type} (o1 o2 : Operations T) : Prop :=
  o1.getTagName = o2.getTagName ∧ o1.getID = o2.getID ∧
  o1.hasClass = o2.hasClass ∧ o1.getParent = o2.getParent ∧
  o1.getChildren = o2.getChildren ∧ o1.getAttribute = o2.getAttribute ∧
  o1.getPreviouSibling = o2.getPreviouSibling

theorem matchSubClassSelector_congr {T : Type} (o1 o2 : Operations T)
    (h : agreesOnSeven o1 o2) (node : T) (s : SubclassSelector) :
    matchSubClassSelector o1 node s = matchSubClassSelector o2 node s := by
  obtain ⟨h1, h2, h3, h4, h5, h6, h7⟩ := h
  cases s <;> simp [matchSubClassSelector, h2, h3, h6]

theorem matchCompoundSelector_congr {T : Type} (o1 o2 : Operations T)
    (h : agreesOnSeven o1 o2) (node : T) (c : CompoundSelector) :
    matchCompoundSelector o1 node c = matchCompoundSelector o2 node c := by
  have hf : (fun s => matchSubClassSelector o1 node s) =
      (fun s => matchSubClassSelector o2 node s) :=
    funext fun s => matchSubClassSelector_congr o1 o2 h node s
  simp only [matchCompoundSelector, h.1, hf]

theorem collectors_congr {T : Type} [DecidableEq T] (o1 o2 : Operations T)
    (h : agreesOnSeven o1 o2) (fuel : Nat) (k : CombinatorKind) (nodes : List T) :
    collectors o1 fuel k nodes = collectors o2 fuel k nodes := by
  obtain ⟨h1, h2, h3, h4, h5, h6, h7⟩ := h
  cases k <;>
    simp [collectors, descendantCollector, childCollector, nextSiblingCollector,
      subsequentSiblingCollector, h4, h7]

theorem complexLoop_congr {T : Type} [DecidableEq T] (o1 o2 : Operations T)
    (h : agreesOnSeven o1 o2) (fuel : Nat)
    (l : List (CombinatorKind × CompoundSelector)) (cands : List T) :
    complexLoop o1 fuel l cands = complexLoop o2 fuel l cands := by
  induction l generalizing cands with
  | nil => rfl
  | cons p rest ih =>
    obtain ⟨comb, sel⟩ := p
    have hmc : (fun t => matchCompoundSelector o1 t sel) =
        (fun t => matchCompoundSelector o2 t sel) :=
      funext fun t => matchCompoundSelector_congr o1 o2 h t sel
    rw [complexLoop_cons, complexLoop_cons, hmc, collectors_congr o1 o2 h]
    by_cases hemp :
        (cands.filter (fun t => matchCompoundSelector o2 t sel)).isEmpty = true
    · rw [if_pos hemp, if_pos hemp]
    · rw [if_neg hemp, if_neg hemp]
      cases hcol :
          collectors o2 fuel comb
            (cands.filter (fun t => matchCompoundSelector o2 t sel)) with
      | error e => rfl
      | ok next => exact ih next

theorem matchComplexSelector_congr {T : Type} [DecidableEq T]
    (o1 o2 : Operations T) (h : agreesOnSeven o1 o2) (fuel : Nat) (root : T)
    (sel : ComplexSelector) :
    matchComplexSelector o1 fuel root sel = matchComplexSelector o2 fuel root sel := by
  have hmc : (fun t => matchCompoundSelector o1 t sel.head) =
      (fun t => matchCompoundSelector o2 t sel.head) :=
    funext fun t => matchCompoundSelector_congr o1 o2 h t sel.head
  unfold matchComplexSelector
  rw [complexLoop_congr o1 o2 h]
  cases complexLoop o2 fuel sel.tail.reverse [root] with
  | error e => rfl
  | ok o =>
    cases o with
    | none => rfl
    | some cands => rw [hmc]

theorem matchSelectors_congr {T : Type} [DecidableEq T] (o1 o2 : Operations T)
    (h : agreesOnSeven o1 o2) (fuel : Nat) (root : T)
    (sels : List ComplexSelector) :
    matchSelectors o1 fuel root sels = matchSelectors o2 fuel root sels := by
  induction sels with
  | nil => rfl
  | cons s rest ih =>
    simp only [matchSelectors]
    rw [matchComplexSelector_congr o1 o2 h]
    cases matchComplexSelector o2 fuel root s with
    | error e => rfl
    | ok b => cases b with
      | true => rfl
      | false => exact ih

theorem preorderTraverse_congr {T : Type} (o1 o2 : Operations T)
    (h : agreesOnSeven o1 o2) (fuel : Nat) (node : T) (b : Bool) :
    preorderDepthFirstTraverse o1 fuel node b = preorderDepthFirstTraverse o2 fuel node b := by
  unfold preorderDepthFirstTraverse
  rw [h.2.2.2.2.1]

theorem queryFirstLoop_congr {T : Type} [DecidableEq T] (o1 o2 : Operations T)
    (h : agreesOnSeven o1 o2) (fuel : Nat) (sels : List ComplexSelector)
    (visited : List T) :
    queryFirstLoop o1 fuel sels visited = queryFirstLoop o2 fuel sels visited := by
  induction visited with
  | nil => rfl
  | cons n rest ih =>
    simp only [queryFirstLoop]
    rw [matchSelectors_congr o1 o2 h]
    cases matchSelectors o2 fuel n sels with
    | error e => rfl
    | ok b => cases b with
      | true => rfl
      | false => exact ih

theorem queryAllLoop_congr {T : Type} [DecidableEq T] (o1 o2 : Operations T)
    (h : agreesOnSeven o1 o2) (fuel : Nat) (sels : List ComplexSelector) :
    ∀ (visited acc : List T),
      queryAllLoop o1 fuel sels visited acc = queryAllLoop o2 fuel sels visited acc := by
  intro visited
  induction visited with
  | nil => intro acc; rfl
  | cons n rest ih =>
    intro acc
    simp only [queryAllLoop]
    rw [matchSelectors_congr o1 o2 h]
    cases matchSelectors o2 fuel n sels with
    | error e => rfl
    | ok b => cases b with
      | true => exact ih (acc ++ [n])
      | false => exact ih acc

/-- C10: the engine never consults `getContent` or `getNextSibling`: any two
adapters that agree on the other seven capabilities (tag name, id, class
membership, parent, children, attribute lookup, previous sibling) yield
identical `querySelector` and `querySelectorAll` results on every root and
selector string. -/
theorem claim_C10_content_nextSibling_unused {T : Type} [DecidableEq T]
    (o1 o2 : Operations T) (h : agreesOnSeven o1 o2) (fuel : Nat)
    (parseF : String → List ComplexSelector) (root : T) (s : String) :
    querySelector o1 fuel parseF root s = querySelector o2 fuel parseF root s ∧
      querySelectorAll o1 fuel parseF root s = querySelectorAll o2 fuel parseF root s := by
  constructor
  · unfold querySelector
    rw [preorderTraverse_congr o1 o2 h, queryFirstLoop_congr o1 o2 h]
  · unfold querySelectorAll
    rw [preorderTraverse_congr o1 o2 h, queryAllLoop_congr o1 o2 h]

/-- An adapter over the example document whose `getContent` and
`getNextSibling` differ from those of `treeOps exDoc`. -/
def exOpsAltContent : Operations (List Nat) :=
  { treeOps exDoc with
      getContent := fun _ => "different",
      getNextSibling := fun _ => none }

theorem claim_C10_witness :
    querySelector (treeOps exDoc) 9 pfDiv [] "div" =
        querySelector exOpsAltContent 9 pfDiv [] "div" ∧
      querySelectorAll (treeOps exDoc) 9 pfDiv [] "div" =
        querySelectorAll exOpsAltContent 9 pfDiv [] "div" :=
  claim_C10_content_nextSibling_unused (treeOps exDoc) exOpsAltContent
    ⟨rfl, rfl, rfl, rfl, rfl, rfl, rfl⟩ 9 pfDiv [] "div"

theorem exceptIsOk_iff {e a : Type} (x : Except e a) :
    x.isOk = true ↔ ∃ b, x = .ok b := by
  cases x <;> simp [Except.isOk, Except.toBool]

/-- Whether a single complex selector matches without error. -/
def complexOk {T : Type} [DecidableEq T] (ops : Operations T) (fuel : Nat)
    (n : T) (s : ComplexSelector) : Bool :=
  match matchComplexSelector ops fuel n s with
  | .ok true => true
  | _ => false

theorem complexOk_eq_true_iff {T : Type} [DecidableEq T] (ops : Operations T)
    (fuel : Nat) (n : T) (s : ComplexSelector) :
    complexOk ops fuel n s = true ↔ matchComplexSelector ops fuel n s = .ok true := by
  unfold complexOk
  cases h : matchComplexSelector ops fuel n s with
  | error e => simp
  | ok b => cases b <;> simp

theorem matchSelectors_eq_any {T : Type} [DecidableEq T] (ops : Operations T)
    (fuel : Nat) (n : T) :
    ∀ (sels : List ComplexSelector),
      (∀ s ∈ sels, (matchComplexSelector ops fuel n s).isOk = true) →
      matchSelectors ops fuel n sels = .ok (sels.any (complexOk ops fuel n)) := by
  intro sels
  induction sels with
  | nil => intro _; rfl
  | cons s rest ih =>
    intro h
    simp only [matchSelectors]
    cases hs : matchComplexSelector ops fuel n s with
    | error e =>
      exfalso
      obtain ⟨b, hb⟩ := (exceptIsOk_iff _).mp (h s (List.mem_cons_self s rest))
      rw [hs] at hb
      cases hb
    | ok b =>
      cases b with
      | true =>
        have hc : complexOk ops fuel n s = true := (complexOk_eq_true_iff _ _ _ _).mpr hs
        simp [List.any_cons, hc]
      | false =>
        have hc : complexOk ops fuel n s = false := by unfold complexOk; rw [hs]
        rw [ih (fun x hx => h x (List.mem_cons_of_mem s hx))]
        simp [List.any_cons, hc]

theorem matchesOk_eq_any {T : Type} [DecidableEq T] (ops : Operations T)
    (fuel : Nat) (n : T) (sels : List ComplexSelector)
    (h : ∀ s ∈ sels, (matchComplexSelector ops fuel n s).isOk = true) :
    matchesOk ops fuel n sels = sels.any (complexOk ops fuel n) := by
  unfold matchesOk
  rw [matchSelectors_eq_any ops fuel n sels h]
  cases sels.any (complexOk ops fuel n) <;> rfl

theorem queryAllLoop_filter {T : Type} [DecidableEq T] (ops : Operations T)
    (fuel : Nat) (sels : List ComplexSelector) :
    ∀ (visited acc : List T),
      (∀ n ∈ visited, (matchSelectors ops fuel n sels).isOk = true) →
      queryAllLoop ops fuel sels visited acc =
        .ok (acc ++ visited.filter (fun n => matchesOk ops fuel n sels)) := by
  intro visited
  induction visited with
  | nil => intro acc _; simp [queryAllLoop]
  | cons n rest ih =>
    intro acc h
    simp only [queryAllLoop]
    cases hm : matchSelectors ops fuel n sels with
    | error e =>
      exfalso
      obtain ⟨b, hb⟩ := (exceptIsOk_iff _).mp (h n (List.mem_cons_self n rest))
      rw [hm] at hb
      cases hb
    | ok b =>
      have hrest : ∀ x ∈ rest, (matchSelectors ops fuel x sels).isOk = true :=
        fun x hx => h x (List.mem_cons_of_mem n hx)
      cases b with
      | true =>
        rw [ih (acc ++ [n]) hrest]
        have hmo : matchesOk ops fuel n sels = true := by unfold matchesOk; rw [hm]
        simp [List.filter_cons, hmo]
      | false =>
        rw [ih acc hrest]
        have hmo : matchesOk ops fuel n sels = false := by unfold matchesOk; rw [hm]
        simp [List.filter_cons, hmo]

/-- C8: a node matches a selector list iff some member complex selector
matches it (under error-free evaluation of the members, reflecting the
left-to-right short-circuit), and consequently the result of
`querySelectorAll` for a selector string parsing to the concatenation
`A ++ B` of two member lists is the union of the results for `A` and for
`B`, ordered by preorder index (it is a subsequence of the preorder
traversal containing exactly the members of either result). -/
theorem claim_C8_or_semantics {T : Type} [DecidableEq T] (ops : Operations T)
    (fuel : Nat) (parseF : String → List ComplexSelector) (root : T)
    (sAB sA sB : String)
    (hcat : parseF sAB = parseF sA ++ parseF sB)
    (hok : ∀ n ∈ preorderDepthFirstTraverse ops fuel root false,
      ∀ s ∈ parseF sAB, (matchComplexSelector ops fuel n s).isOk = true) :
    (∀ (n : T) (sels : List ComplexSelector),
        (∀ s ∈ sels, (matchComplexSelector ops fuel n s).isOk = true) →
        (matchSelectors ops fuel n sels = .ok true ↔
          ∃ s ∈ sels, matchComplexSelector ops fuel n s = .ok true)) ∧
    (∃ lAB lA lB : List T,
      querySelectorAll ops fuel parseF root sAB = .ok lAB ∧
      querySelectorAll ops fuel parseF root sA = .ok lA ∧
      querySelectorAll ops fuel parseF root sB = .ok lB ∧
      (∀ x, x ∈ lAB ↔ x ∈ lA ∨ x ∈ lB) ∧
      lAB.Sublist (preorderDepthFirstTraverse ops fuel root false)) := by
  have part1 : ∀ (n : T) (sels : List ComplexSelector),
      (∀ s ∈ sels, (matchComplexSelector ops fuel n s).isOk = true) →
      (matchSelectors ops fuel n sels = .ok true ↔
        ∃ s ∈ sels, matchComplexSelector ops fuel n s = .ok true) := by
    intro n sels h
    rw [matchSelectors_eq_any ops fuel n sels h]
    simp only [Except.ok.injEq, List.any_eq_true]
    constructor
    · rintro ⟨s, hs, hc⟩
      exact ⟨s, hs, (complexOk_eq_true_iff _ _ _ _).mp hc⟩
    · rintro ⟨s, hs, hc⟩
      exact ⟨s, hs, (complexOk_eq_true_iff _ _ _ _).mpr hc⟩
  refine ⟨part1, ?_⟩
  have hokA : ∀ n ∈ preorderDepthFirstTraverse ops fuel root false,
      ∀ s ∈ parseF sA, (matchComplexSelector ops fuel n s).isOk = true := by
    intro n hn s hs
    exact hok n hn s (by rw [hcat]; exact List.mem_append_left _ hs)
  have hokB : ∀ n ∈ preorderDepthFirstTraverse ops fuel root false,
      ∀ s ∈ parseF sB, (matchComplexSelector ops fuel n s).isOk = true := by
    intro n hn s hs
    exact hok n hn s (by rw [hcat]; exact List.mem_append_right _ hs)
  have hselOk : ∀ (sels : List ComplexSelector),
      (∀ n ∈ preorderDepthFirstTraverse ops fuel root false,
        ∀ s ∈ sels, (matchComplexSelector ops fuel n s).isOk = true) →
      ∀ n ∈ preorderDepthFirstTraverse ops fuel root false,
        (matchSelectors ops fuel n sels).isOk = true := by
    intro sels hh n hn
    rw [matchSelectors_eq_any ops fuel n sels (hh n hn)]
    rfl
  refine ⟨(preorderDepthFirstTraverse ops fuel root false).filter
      (fun n => matchesOk ops fuel n (parseF sAB)),
    (preorderDepthFirstTraverse ops fuel root false).filter
      (fun n => matchesOk ops fuel n (parseF sA)),
    (preorderDepthFirstTraverse ops fuel root false).filter
      (fun n => matchesOk ops fuel n (parseF sB)), ?_, ?_, ?_, ?_, ?_⟩
  · unfold querySelectorAll
    rw [queryAllLoop_filter ops fuel (parseF sAB) _ []
      (hselOk (parseF sAB) hok)]
    simp
  · unfold querySelectorAll
    rw [queryAllLoop_filter ops fuel (parseF sA) _ []
      (hselOk (parseF sA) hokA)]
    simp
  · unfold querySelectorAll
    rw [queryAllLoop_filter ops fuel (parseF sB) _ []
      (hselOk (parseF sB) hokB)]
    simp
  · intro x
    simp only [List.mem_filter]
    constructor
    · rintro ⟨hx, hm⟩
      rw [matchesOk_eq_any ops fuel x (parseF sAB) (hok x hx), hcat,
        List.any_append] at hm
      rcases Bool.or_eq_true_iff.mp hm with hma | hmb
      · exact Or.inl ⟨hx, by rw [matchesOk_eq_any ops fuel x (parseF sA) (hokA x hx)]; exact hma⟩
      · exact Or.inr ⟨hx, by rw [matchesOk_eq_any ops fuel x (parseF sB) (hokB x hx)]; exact hmb⟩
    · rintro (⟨hx, hm⟩ | ⟨hx, hm⟩)
      · refine ⟨hx, ?_⟩
        rw [matchesOk_eq_any ops fuel x (parseF sAB) (hok x hx), hcat, List.any_append]
        rw [matchesOk_eq_any ops fuel x (parseF sA) (hokA x hx)] at hm
        exact Bool.or_eq_true_iff.mpr (Or.inl hm)
      · refine ⟨hx, ?_⟩
        rw [matchesOk_eq_any ops fuel x (parseF sAB) (hok x hx), hcat, List.any_append]
        rw [matchesOk_eq_any ops fuel x (parseF sB) (hokB x hx)] at hm
        exact Bool.or_eq_true_iff.mpr (Or.inr hm)
  · exact List.filter_sublist _

/-- The complex selector `p`. -/
def pSel : ComplexSelector := ⟨⟨some "p", none, none⟩, []⟩

/-- A parse function with `"A, B"` parsing to the concatenation of the
parses of `"A"` and `"B"`. -/
def pfOr : String → List ComplexSelector := fun s =>
  if s = "A, B" then [divSel, pSel]
  else if s = "A" then [divSel]
  else if s = "B" then [pSel]
  else []

theorem claim_C8_witness :
    (∀ (n : List Nat) (sels : List ComplexSelector),
        (∀ s ∈ sels, (matchComplexSelector (treeOps exDoc) 9 n s).isOk = true) →
        (matchSelectors (treeOps exDoc) 9 n sels = .ok true ↔
          ∃ s ∈ sels, matchComplexSelector (treeOps exDoc) 9 n s = .ok true)) ∧
    (∃ lAB lA lB : List (List Nat),
      querySelectorAll (treeOps exDoc) 9 pfOr [] "A, B" = .ok lAB ∧
      querySelectorAll (treeOps exDoc) 9 pfOr [] "A" = .ok lA ∧
      querySelectorAll (treeOps exDoc) 9 pfOr [] "B" = .ok lB ∧
      (∀ x, x ∈ lAB ↔ x ∈ lA ∨ x ∈ lB) ∧
      lAB.Sublist (preorderDepthFirstTraverse (treeOps exDoc) 9 [] false)) :=
  claim_C8_or_semantics (treeOps exDoc) 9 pfOr [] "A, B" "A" "B"
    (by decide) (by decide)

/-- Fold a list into an accumulator keeping first occurrences only (the
effect of the collectors' dedup-and-push loop on the nodes it visits). -/
def dedupInto {T : Type} [DecidableEq T] (acc : List T) (l : List T) : List T :=
  l.foldl (fun a x => if x ∈ a then a else a ++ [x]) acc

theorem chainCollect_eq_dedupInto {T : Type} [DecidableEq T] (next : T → Option T) :
    ∀ (fuel : Nat) (st : Option T) (acc : List T),
      chainCollect next fuel st acc = dedupInto acc (chainElems next fuel st) := by
  intro fuel
  induction fuel with
  | zero => intro st acc; cases st <;> rfl
  | succ f ih =>
    intro st acc
    cases st with
    | none => rfl
    | some t =>
      show chainCollect next f (next t) (if t ∈ acc then acc else acc ++ [t]) = _
      rw [ih (next t) (if t ∈ acc then acc else acc ++ [t])]
      rfl

theorem mem_dedupInto {T : Type} [DecidableEq T] (x : T) :
    ∀ (l acc : List T), x ∈ dedupInto acc l ↔ x ∈ acc ∨ x ∈ l := by
  intro l
  induction l with
  | nil => intro acc; simp [dedupInto]
  | cons y l ih =>
    intro acc
    show x ∈ dedupInto (if y ∈ acc then acc else acc ++ [y]) l ↔ _
    rw [ih]
    by_cases hy : y ∈ acc
    · rw [if_pos hy]
      simp only [List.mem_cons]
      constructor
      · rintro (h | h)
        · exact Or.inl h
        · exact Or.inr (Or.inr h)
      · rintro (h | h | h)
        · exact Or.inl h
        · exact Or.inl (h ▸ hy)
        · exact Or.inr h
    · rw [if_neg hy]
      simp only [List.mem_append, List.mem_singleton, List.mem_cons]
      tauto

theorem nodup_dedupInto {T : Type} [DecidableEq T] :
    ∀ (l acc : List T), acc.Nodup → (dedupInto acc l).Nodup := by
  intro l
  induction l with
  | nil => intro acc h; exact h
  | cons y l ih =>
    intro acc h
    show (dedupInto (if y ∈ acc then acc else acc ++ [y]) l).Nodup
    apply ih
    by_cases hy : y ∈ acc
    · rw [if_pos hy]; exact h
    · rw [if_neg hy]
      simp [List.nodup_append, h, hy]

theorem mem_pushIfNew {T : Type} [DecidableEq T] (x : T) (acc : List T)
    (o : Option T) : x ∈ pushIfNew acc o ↔ x ∈ acc ∨ o = some x := by
  cases o with
  | none => simp [pushIfNew]
  | some t =>
    show x ∈ (if t ∈ acc then acc else acc ++ [t]) ↔ _
    by_cases ht : t ∈ acc
    · rw [if_pos ht]
      simp only [Option.some.injEq]
      constructor
      · exact fun h => Or.inl h
      · rintro (h | rfl)
        · exact h
        · exact ht
    · rw [if_neg ht]
      simp only [List.mem_append, List.mem_singleton, Option.some.injEq]
      constructor
      · rintro (h | rfl)
        · exact Or.inl h
        · exact Or.inr rfl
      · rintro (h | rfl)
        · exact Or.inl h
        · exact Or.inr rfl

theorem nodup_pushIfNew {T : Type} [DecidableEq T] (acc : List T) (o : Option T)
    (h : acc.Nodup) : (pushIfNew acc o).Nodup := by
  cases o with
  | none => exact h
  | some t =>
    show (if t ∈ acc then acc else acc ++ [t]).Nodup
    by_cases ht : t ∈ acc
    · rw [if_pos ht]; exact h
    · rw [if_neg ht]; simp [List.nodup_append, h, ht]

theorem mem_foldl_chainCollect {T : Type} [DecidableEq T] (next : T → Option T)
    (fuel : Nat) (x : T) :
    ∀ (nodes init : List T),
      (x ∈ nodes.foldl (fun acc n => chainCollect next fuel (next n) acc) init ↔
        x ∈ init ∨ ∃ n ∈ nodes, x ∈ chainElems next fuel (next n)) := by
  intro nodes
  induction nodes with
  | nil => intro init; simp
  | cons n rest ih =>
    intro init
    simp only [List.foldl_cons]
    rw [ih, chainCollect_eq_dedupInto, mem_dedupInto]
    simp only [List.mem_cons]
    constructor
    · rintro ((h | h) | ⟨m, hm, hx⟩)
      · exact Or.inl h
      · exact Or.inr ⟨n, Or.inl rfl, h⟩
      · exact Or.inr ⟨m, Or.inr hm, hx⟩
    · rintro (h | ⟨m, (rfl | hm), hx⟩)
      · exact Or.inl (Or.inl h)
      · exact Or.inl (Or.inr hx)
      · exact Or.inr ⟨m, hm, hx⟩

theorem nodup_foldl_chainCollect {T : Type} [DecidableEq T] (next : T → Option T)
    (fuel : Nat) :
    ∀ (nodes init : List T), init.Nodup →
      (nodes.foldl (fun acc n => chainCollect next fuel (next n) acc) init).Nodup := by
  intro nodes
  induction nodes with
  | nil => intro init h; exact h
  | cons n rest ih =>
    intro init h
    simp only [List.foldl_cons]
    exact ih _ (by rw [chainCollect_eq_dedupInto]; exact nodup_dedupInto _ _ h)

theorem mem_foldl_pushIfNew {T : Type} [DecidableEq T] (f : T → Option T) (x : T) :
    ∀ (nodes init : List T),
      (x ∈ nodes.foldl (fun acc n => pushIfNew acc (f n)) init ↔
        x ∈ init ∨ ∃ n ∈ nodes, f n = some x) := by
  intro nodes
  induction nodes with
  | nil => intro init; simp
  | cons n rest ih =>
    intro init
    simp only [List.foldl_cons]
    rw [ih, mem_pushIfNew]
    simp only [List.mem_cons]
    constructor
    · rintro ((h | h) | ⟨m, hm, hx⟩)
      · exact Or.inl h
      · exact Or.inr ⟨n, Or.inl rfl, h⟩
      · exact Or.inr ⟨m, Or.inr hm, hx⟩
    · rintro (h | ⟨m, (rfl | hm), hx⟩)
      · exact Or.inl (Or.inl h)
      · exact Or.inl (Or.inr hx)
      · exact Or.inr ⟨m, hm, hx⟩

theorem nodup_foldl_pushIfNew {T : Type} [DecidableEq T] (f : T → Option T) :
    ∀ (nodes init : List T), init.Nodup →
      (nodes.foldl (fun acc n => pushIfNew acc (f n)) init).Nodup := by
  intro nodes
  induction nodes with
  | nil => intro init h; exact h
  | cons n rest ih =>
    intro init h
    simp only [List.foldl_cons]
    exact ih _ (nodup_pushIfNew _ _ h)

theorem subtreeAt_append :
    ∀ (p q : List Nat) (t : DTree),
      subtreeAt t (p ++ q) = (subtreeAt t p).bind (fun u => subtreeAt u q) := by
  intro p
  induction p with
  | nil => intro q t; rfl
  | cons i p ih =>
    intro q t
    show subtreeAt t ((i :: p) ++ q) = _
    simp only [List.cons_append, subtreeAt]
    cases t.children[i]? with
    | none => rfl
    | some c => exact ih q c

mutual

theorem DTree.indP {P : DTree → Prop} {Q : List DTree → Prop}
    (hnode : ∀ d cs, Q cs → P (DTree.node d cs))
    (hnil : Q []) (hcons : ∀ t ts, P t → Q ts → Q (t :: ts)) :
    ∀ t : DTree, P t
  | .node d cs => hnode d cs (DTree.indQ hnode hnil hcons cs)

theorem DTree.indQ {P : DTree → Prop} {Q : List DTree → Prop}
    (hnode : ∀ d cs, Q cs → P (DTree.node d cs))
    (hnil : Q []) (hcons : ∀ t ts, P t → Q ts → Q (t :: ts)) :
    ∀ ts : List DTree, Q ts
  | [] => hnil
  | t :: ts => hcons t ts (DTree.indP hnode hnil hcons t) (DTree.indQ hnode hnil hcons ts)

end

theorem DTree.size_pos : ∀ t : DTree, 1 ≤ t.size := by
  intro t
  cases t with
  | node d cs => show 1 ≤ 1 + DTree.sizeL cs; omega

theorem DTree.height_pos : ∀ t : DTree, 1 ≤ t.height := by
  intro t
  cases t with
  | node d cs => show 1 ≤ DTree.heightL cs + 1; omega

theorem DTree.mem_size_le : ∀ (cs : List DTree), ∀ c ∈ cs, c.size ≤ DTree.sizeL cs := by
  intro cs
  induction cs with
  | nil => intro c hc; cases hc
  | cons t ts ih =>
    intro c hc
    show c.size ≤ t.size + DTree.sizeL ts
    rcases List.mem_cons.mp hc with rfl | hc
    · omega
    · have := ih c hc; omega

theorem DTree.mem_height_le : ∀ (cs : List DTree), ∀ c ∈ cs, c.height ≤ DTree.heightL cs := by
  intro cs
  induction cs with
  | nil => intro c hc; cases hc
  | cons t ts ih =>
    intro c hc
    show c.height ≤ max t.height (DTree.heightL ts)
    rcases List.mem_cons.mp hc with rfl | hc
    · omega
    · have := ih c hc; omega

theorem DTree.height_le_size : ∀ t : DTree, t.height ≤ t.size := by
  have h := DTree.indP (P := fun t => t.height ≤ t.size)
    (Q := fun cs => DTree.heightL cs ≤ DTree.sizeL cs ∧
      ∀ c ∈ cs, 1 ≤ c.size)
    (fun d cs hq => by
      show DTree.heightL cs + 1 ≤ 1 + DTree.sizeL cs
      omega)
    (by constructor <;> simp [DTree.heightL, DTree.sizeL])
    (fun t ts hp hq => by
      constructor
      · show max t.height (DTree.heightL ts) ≤ t.size + DTree.sizeL ts
        have h1 := hq.1
        have h2 := DTree.size_pos t
        have h3 : DTree.heightL ts ≤ DTree.sizeL ts := hq.1
        omega
      · intro c hc
        rcases List.mem_cons.mp hc with rfl | hc
        · exact DTree.size_pos c
        · exact hq.2 c hc)
  exact h

theorem DTree.length_le_sizeL : ∀ cs : List DTree, cs.length ≤ DTree.sizeL cs := by
  intro cs
  induction cs with
  | nil => simp [DTree.sizeL]
  | cons t ts ih =>
    show ts.length + 1 ≤ t.size + DTree.sizeL ts
    have := DTree.size_pos t
    omega

theorem subtree_size_le :
    ∀ (p : List Nat) (doc t : DTree), subtreeAt doc p = some t → t.size ≤ doc.size := by
  intro p
  induction p with
  | nil =>
    intro doc t h
    cases h
    exact le_refl _
  | cons i p ih =>
    intro doc t h
    simp only [subtreeAt] at h
    cases hc : doc.children[i]? with
    | none => rw [hc] at h; cases h
    | some c =>
      rw [hc] at h
      have h1 : t.size ≤ c.size := ih c t h
      have h2 : c.size ≤ DTree.sizeL doc.children :=
        DTree.mem_size_le doc.children c (List.getElem?_mem hc)
      have h3 : DTree.sizeL doc.children < doc.size := by
        cases doc with
        | node d cs => show DTree.sizeL cs < 1 + DTree.sizeL cs; omega
      omega

theorem subtree_height_add :
    ∀ (p : List Nat) (doc t : DTree),
      subtreeAt doc p = some t → p.length + t.height ≤ doc.height := by
  intro p
  induction p with
  | nil =>
    intro doc t h
    cases h
    simp
  | cons i p ih =>
    intro doc t h
    simp only [subtreeAt] at h
    cases hc : doc.children[i]? with
    | none => rw [hc] at h; cases h
    | some c =>
      rw [hc] at h
      have h1 : p.length + t.height ≤ c.height := ih c t h
      have h2 : c.height ≤ DTree.heightL doc.children :=
        DTree.mem_height_le doc.children c (List.getElem?_mem hc)
      have h3 : DTree.heightL doc.children + 1 = doc.height := by
        cases doc with
        | node d cs => rfl
      simp only [List.length_cons]
      omega

theorem concat_inj {q1 q2 : List Nat} {a b : Nat} (h : q1 ++ [a] = q2 ++ [b]) :
    q1 = q2 ∧ a = b := by
  have h2 := congrArg List.reverse h
  simp only [List.reverse_append, List.reverse_singleton, List.singleton_append,
    List.cons.injEq] at h2
  exact ⟨List.reverse_injective h2.2, h2.1⟩

theorem ancestorsOf_cons (x : Nat) (rest : List Nat) :
    ancestorsOf (x :: rest) =
      (x :: rest).dropLast :: ancestorsOf ((x :: rest).dropLast) := by
  rw [ancestorsOf]

theorem mem_ancestorsOf (x : List Nat) :
    ∀ p : List Nat, x ∈ ancestorsOf p ↔ (x <+: p ∧ x ≠ p) := by
  intro p
  induction p using List.reverseRecOn with
  | nil =>
    show x ∈ ancestorsOf [] ↔ _
    rw [ancestorsOf]
    simp only [List.not_mem_nil, false_iff, not_and]
    intro hp
    rw [List.prefix_nil.mp hp]
    simp
  | append_singleton q a ih =>
    have hne : q ++ [a] ≠ [] := by simp
    have heq : ancestorsOf (q ++ [a]) = q :: ancestorsOf q := by
      cases hq : q ++ [a] with
      | nil => exact absurd hq hne
      | cons y ys =>
        rw [← hq, hq, ancestorsOf_cons, ← hq, List.dropLast_concat]
    rw [heq, List.mem_cons, ih, List.prefix_concat_iff]
    constructor
    · rintro (rfl | ⟨hp, hnex⟩)
      · refine ⟨Or.inr List.prefix_rfl, ?_⟩
        intro hx
        have := congrArg List.length hx
        simp at this
      · refine ⟨Or.inr hp, ?_⟩
        intro hx
        subst hx
        have := List.IsPrefix.length_le hp
        simp at this
    · rintro ⟨(rfl | hp), hnex⟩
      · exact absurd rfl hnex
      · by_cases hx : x = q
        · exact Or.inl hx
        · exact Or.inr ⟨hp, hx⟩

theorem treeOps_getParent_nil (doc : DTree) : (treeOps doc).getParent [] = none := rfl

theorem treeOps_getParent_cons (doc : DTree) (x : Nat) (rest : List Nat) :
    (treeOps doc).getParent (x :: rest) = some ((x :: rest).dropLast) := rfl

theorem treeOps_getPreviouSibling_eq (doc : DTree) :
    (treeOps doc).getPreviouSibling = prevSiblingPath := rfl

theorem chainElems_parent (doc : DTree) :
    ∀ (fuel : Nat) (p : List Nat), p.length ≤ fuel →
      chainElems (treeOps doc).getParent fuel ((treeOps doc).getParent p) =
        ancestorsOf p := by
  intro fuel
  induction fuel with
  | zero =>
    intro p hp
    have : p = [] := List.length_eq_zero.mp (Nat.le_zero.mp hp)
    subst this
    rw [treeOps_getParent_nil, ancestorsOf]
    rfl
  | succ f ih =>
    intro p hp
    cases p with
    | nil =>
      rw [treeOps_getParent_nil, ancestorsOf]
      rfl
    | cons x rest =>
      rw [treeOps_getParent_cons, ancestorsOf_cons]
      show ((x :: rest).dropLast) :: chainElems (treeOps doc).getParent f
          ((treeOps doc).getParent ((x :: rest).dropLast)) = _
      rw [ih ((x :: rest).dropLast)
        (by simp only [List.length_dropLast, List.length_cons] at *; omega)]

theorem mem_prevChain (x : List Nat) (q : List Nat) :
    ∀ j : Nat, x ∈ prevChain q j ↔ ∃ i, i < j ∧ x = q ++ [i] := by
  intro j
  induction j with
  | zero => simp [prevChain]
  | succ i ih =>
    show x ∈ (q ++ [i]) :: prevChain q i ↔ _
    rw [List.mem_cons, ih]
    constructor
    · rintro (rfl | ⟨k, hk, rfl⟩)
      · exact ⟨i, by omega, rfl⟩
      · exact ⟨k, by omega, rfl⟩
    · rintro ⟨k, hk, rfl⟩
      by_cases hki : k = i
      · subst hki; exact Or.inl rfl
      · exact Or.inr ⟨k, by omega, rfl⟩

theorem chainElems_prevSib_concat :
    ∀ (j : Nat) (q : List Nat) (fuel : Nat), j ≤ fuel →
      chainElems prevSiblingPath fuel (prevSiblingPath (q ++ [j])) = prevChain q j := by
  intro j
  induction j with
  | zero =>
    intro q fuel _
    have h0 : prevSiblingPath (q ++ [0]) = none := by
      unfold prevSiblingPath
      rw [List.getLast?_concat]
    rw [h0]
    cases fuel <;> rfl
  | succ i ih =>
    intro q fuel hf
    have hstep : prevSiblingPath (q ++ [i + 1]) = some (q ++ [i]) := by
      unfold prevSiblingPath
      rw [List.getLast?_concat, List.dropLast_concat]
    cases fuel with
    | zero => omega
    | succ f =>
      rw [hstep]
      show (q ++ [i]) :: chainElems prevSiblingPath f (prevSiblingPath (q ++ [i])) = _
      rw [ih q f (by omega)]
      rfl

/-- The list of preceding siblings of a path, nearest first. -/
def prevSiblingsOf (p : List Nat) : List (List Nat) :=
  match p.getLast? with
  | none => []
  | some j => prevChain p.dropLast j

theorem chainElems_prevSib (p : List Nat) (fuel : Nat)
    (h : p.getLast?.getD 0 ≤ fuel) :
    chainElems prevSiblingPath fuel (prevSiblingPath p) = prevSiblingsOf p := by
  cases hlast : p.getLast? with
  | none =>
    have h0 : prevSiblingPath p = none := by unfold prevSiblingPath; rw [hlast]
    rw [h0]
    unfold prevSiblingsOf
    rw [hlast]
    cases fuel <;> rfl
  | some j =>
    have hp : p.dropLast ++ [j] = p := List.dropLast_append_getLast? j hlast
    have hj : j ≤ fuel := by rw [hlast] at h; simpa using h
    have := chainElems_prevSib_concat j p.dropLast fuel hj
    rw [hp] at this
    rw [this]
    unfold prevSiblingsOf
    rw [hlast]

theorem mem_prevSiblingsOf (x p : List Nat) :
    x ∈ prevSiblingsOf p ↔ isPrecedingSiblingPath x p := by
  unfold prevSiblingsOf isPrecedingSiblingPath
  cases hlast : p.getLast? with
  | none =>
    have : p = [] := List.getLast?_eq_none_iff.mp hlast
    subst this
    simp only [List.not_mem_nil, false_iff, not_exists]
    rintro q i j ⟨_, _, hj⟩
    exact absurd hj.symm (by simp)
  | some j =>
    have hp : p.dropLast ++ [j] = p := List.dropLast_append_getLast? j hlast
    rw [mem_prevChain]
    constructor
    · rintro ⟨i, hi, rfl⟩
      exact ⟨p.dropLast, i, j, hi, rfl, hp.symm⟩
    · rintro ⟨q, i, j', hij, rfl, hpq⟩
      have : q = p.dropLast ∧ j' = j := by
        have h2 : q ++ [j'] = p.dropLast ++ [j] := by rw [hp, ← hpq]
        exact concat_inj h2
      obtain ⟨rfl, rfl⟩ := this
      exact ⟨i, hij, rfl⟩

theorem subtreeAt_singleton (u : DTree) (j : Nat) :
    subtreeAt u [j] = u.children[j]? := by
  cases hc : u.children[j]? <;> simp [subtreeAt, hc]

theorem valid_length_lt (doc : DTree) (p : List Nat) (h : ValidPath doc p) :
    p.length < DTree.size doc := by
  unfold ValidPath at h
  cases hs : subtreeAt doc p with
  | none => rw [hs] at h; cases h
  | some t =>
    have h1 := subtree_height_add p doc t hs
    have h2 := DTree.height_pos t
    have h3 := DTree.height_le_size doc
    omega

theorem valid_lastIdx_lt (doc : DTree) (p : List Nat) (h : ValidPath doc p) :
    p.getLast?.getD 0 < DTree.size doc := by
  cases hlast : p.getLast? with
  | none => simpa using DTree.size_pos doc
  | some j =>
    have hp : p.dropLast ++ [j] = p := List.dropLast_append_getLast? j hlast
    unfold ValidPath at h
    rw [← hp, subtreeAt_append] at h
    cases hq : subtreeAt doc p.dropLast with
    | none => rw [hq] at h; cases h
    | some u =>
      rw [hq, Option.some_bind, subtreeAt_singleton] at h
      have hjlen : j < u.children.length := by
        by_contra hh
        rw [List.getElem?_eq_none_iff.mpr (by omega)] at h
        cases h
      have h2 : u.children.length ≤ DTree.sizeL u.children := by
        have := DTree.length_le_sizeL u.children
        omega
      have h3 : DTree.sizeL u.children < u.size := by
        cases u with
        | node d cs => show DTree.sizeL cs < 1 + DTree.sizeL cs; omega
      have h4 : u.size ≤ doc.size := subtree_size_le p.dropLast doc u hq
      simp only [Option.getD_some]
      omega

theorem valid_of_prefix (doc : DTree) (x p : List Nat) (hx : x <+: p)
    (h : ValidPath doc p) : ValidPath doc x := by
  obtain ⟨r, rfl⟩ := hx
  unfold ValidPath at h ⊢
  rw [subtreeAt_append] at h
  cases hs : subtreeAt doc x with
  | none => rw [hs] at h; cases h
  | some u => simp [hs]

theorem valid_sibling (doc : DTree) (q : List Nat) (i j : Nat) (hij : i < j)
    (h : ValidPath doc (q ++ [j])) : ValidPath doc (q ++ [i]) := by
  unfold ValidPath at h ⊢
  rw [subtreeAt_append] at h ⊢
  cases hs : subtreeAt doc q with
  | none => rw [hs] at h; cases h
  | some u =>
    rw [hs] at h
    rw [Option.some_bind, subtreeAt_singleton] at h ⊢
    have hjlen : j < u.children.length := by
      by_contra hh
      rw [List.getElem?_eq_none_iff.mpr (by omega)] at h
      cases h
    rw [List.getElem?_eq_getElem (by omega)]
    rfl

theorem treeOps_getParent_eq_some_iff (doc : DTree) (n x : List Nat) :
    (treeOps doc).getParent n = some x ↔ ∃ i, n = x ++ [i] := by
  cases n with
  | nil =>
    rw [treeOps_getParent_nil]
    simp
  | cons y rest =>
    rw [treeOps_getParent_cons]
    simp only [Option.some.injEq]
    constructor
    · rintro rfl
      have hne : (y :: rest) ≠ ([] : List Nat) := by simp
      exact ⟨(y :: rest).getLast hne, (List.dropLast_append_getLast hne).symm⟩
    · rintro ⟨i, hi⟩
      rw [hi, List.dropLast_concat]

theorem prevSiblingPath_eq_some_iff (n x : List Nat) :
    prevSiblingPath n = some x ↔ isImmediatePrevSiblingPath x n := by
  unfold prevSiblingPath isImmediatePrevSiblingPath
  cases hlast : n.getLast? with
  | none =>
    have hn : n = [] := List.getLast?_eq_none_iff.mp hlast
    subst hn
    constructor
    · intro h; cases h
    · rintro ⟨q, i, _, hn⟩
      exact absurd hn.symm (by simp)
  | some j =>
    cases j with
    | zero =>
      constructor
      · intro h; cases h
      · rintro ⟨q, i, _, hn⟩
        rw [hn, List.getLast?_concat] at hlast
        cases hlast
    | succ i =>
      have hp : n.dropLast ++ [i + 1] = n := List.dropLast_append_getLast? _ hlast
      constructor
      · intro h
        simp only [Option.some.injEq] at h
        exact ⟨n.dropLast, i, h.symm, hp.symm⟩
      · rintro ⟨q, k, rfl, hn⟩
        have h2 : q = n.dropLast ∧ k + 1 = i + 1 := concat_inj (by rw [hp, ← hn])
        obtain ⟨rfl, hk⟩ := h2
        have : k = i := by omega
        subst this
        rfl

/-- C4: over a document, the combinator collectors return exactly: for
Descendant, the union of all strict ancestors of the candidates; for Child,
the direct parents; for NextSibling, the immediately preceding siblings; for
SubsequentSibling, the union of all preceding siblings — and every collector
call returns each node at most once (its output has no duplicates, the
identity-based dedup being scoped to the single call). -/
theorem claim_C4_collectors (doc : DTree) (fuel : Nat) (nodes : List (List Nat))
    (hv : ∀ n ∈ nodes, ValidPath doc n) (hf : DTree.size doc ≤ fuel) :
    (∀ x, x ∈ descendantCollector (treeOps doc) fuel nodes ↔
      ∃ n ∈ nodes, isStrictAncestorPath x n) ∧
    (∀ x, x ∈ childCollector (treeOps doc) nodes ↔
      ∃ n ∈ nodes, isParentPath x n) ∧
    (∀ x, x ∈ nextSiblingCollector (treeOps doc) nodes ↔
      ∃ n ∈ nodes, isImmediatePrevSiblingPath x n) ∧
    (∀ x, x ∈ subsequentSiblingCollector (treeOps doc) fuel nodes ↔
      ∃ n ∈ nodes, isPrecedingSiblingPath x n) ∧
    (descendantCollector (treeOps doc) fuel nodes).Nodup ∧
    (childCollector (treeOps doc) nodes).Nodup ∧
    (nextSiblingCollector (treeOps doc) nodes).Nodup ∧
    (subsequentSiblingCollector (treeOps doc) fuel nodes).Nodup := by
  refine ⟨?_, ?_, ?_, ?_, ?_, ?_, ?_, ?_⟩
  · intro x
    unfold descendantCollector
    rw [mem_foldl_chainCollect]
    simp only [List.not_mem_nil, false_or]
    constructor
    · rintro ⟨n, hn, hx⟩
      rw [chainElems_parent doc fuel n
        (by have := valid_length_lt doc n (hv n hn); omega)] at hx
      exact ⟨n, hn, (mem_ancestorsOf x n).mp hx⟩
    · rintro ⟨n, hn, hx⟩
      refine ⟨n, hn, ?_⟩
      rw [chainElems_parent doc fuel n
        (by have := valid_length_lt doc n (hv n hn); omega)]
      exact (mem_ancestorsOf x n).mpr hx
  · intro x
    unfold childCollector
    rw [mem_foldl_pushIfNew]
    simp only [List.not_mem_nil, false_or]
    unfold isParentPath
    constructor
    · rintro ⟨n, hn, hx⟩
      exact ⟨n, hn, (treeOps_getParent_eq_some_iff doc n x).mp hx⟩
    · rintro ⟨n, hn, hx⟩
      exact ⟨n, hn, (treeOps_getParent_eq_some_iff doc n x).mpr hx⟩
  · intro x
    unfold nextSiblingCollector
    rw [mem_foldl_pushIfNew]
    simp only [List.not_mem_nil, false_or, treeOps_getPreviouSibling_eq]
    constructor
    · rintro ⟨n, hn, hx⟩
      exact ⟨n, hn, (prevSiblingPath_eq_some_iff n x).mp hx⟩
    · rintro ⟨n, hn, hx⟩
      exact ⟨n, hn, (prevSiblingPath_eq_some_iff n x).mpr hx⟩
  · intro x
    unfold subsequentSiblingCollector
    rw [mem_foldl_chainCollect]
    simp only [List.not_mem_nil, false_or, treeOps_getPreviouSibling_eq]
    constructor
    · rintro ⟨n, hn, hx⟩
      rw [chainElems_prevSib n fuel
        (by have := valid_lastIdx_lt doc n (hv n hn); omega)] at hx
      exact ⟨n, hn, (mem_prevSiblingsOf x n).mp hx⟩
    · rintro ⟨n, hn, hx⟩
      refine ⟨n, hn, ?_⟩
      rw [chainElems_prevSib n fuel
        (by have := valid_lastIdx_lt doc n (hv n hn); omega)]
      exact (mem_prevSiblingsOf x n).mpr hx
  · exact nodup_foldl_chainCollect _ _ nodes [] List.nodup_nil
  · exact nodup_foldl_pushIfNew _ nodes [] List.nodup_nil
  · exact nodup_foldl_pushIfNew _ nodes [] List.nodup_nil
  · exact nodup_foldl_chainCollect _ _ nodes [] List.nodup_nil

theorem claim_C4_witness :
    (∀ x, x ∈ descendantCollector (treeOps exDoc) 9 [[0, 0], [1]] ↔
      ∃ n ∈ [[0, 0], [1]], isStrictAncestorPath x n) ∧
    (∀ x, x ∈ childCollector (treeOps exDoc) [[0, 0], [1]] ↔
      ∃ n ∈ [[0, 0], [1]], isParentPath x n) ∧
    (∀ x, x ∈ nextSiblingCollector (treeOps exDoc) [[0, 0], [1]] ↔
      ∃ n ∈ [[0, 0], [1]], isImmediatePrevSiblingPath x n) ∧
    (∀ x, x ∈ subsequentSiblingCollector (treeOps exDoc) 9 [[0, 0], [1]] ↔
      ∃ n ∈ [[0, 0], [1]], isPrecedingSiblingPath x n) ∧
    (descendantCollector (treeOps exDoc) 9 [[0, 0], [1]]).Nodup ∧
    (childCollector (treeOps exDoc) [[0, 0], [1]]).Nodup ∧
    (nextSiblingCollector (treeOps exDoc) [[0, 0], [1]]).Nodup ∧
    (subsequentSiblingCollector (treeOps exDoc) 9 [[0, 0], [1]]).Nodup :=
  claim_C4_collectors exDoc 9 [[0, 0], [1]] (by decide) (by decide)

theorem treeOps_getChildren (doc : DTree) (p : List Nat) (t : DTree)
    (h : subtreeAt doc p = some t) :
    (treeOps doc).getChildren p =
      (List.range t.children.length).map (fun i => p ++ [i]) := by
  show (match subtreeAt doc p with
    | some t => (List.range t.children.length).map (fun i => p ++ [i])
    | none => []) = _
  rw [h]

theorem subtreeAt_child (doc : DTree) (p : List Nat) (t : DTree)
    (h : subtreeAt doc p = some t) (i : Nat) :
    subtreeAt doc (p ++ [i]) = t.children[i]? := by
  rw [subtreeAt_append, h, Option.some_bind, subtreeAt_singleton]

theorem preorderGo_succ {T : Type} (children : T → List T) (f : Nat) (node : T) :
    preorderGo children (f + 1) node true =
      node :: (children node).flatMap (fun c => preorderGo children f c true) := rfl

theorem preorderGo_eq_paths (doc : DTree) :
    ∀ t : DTree, ∀ (p : List Nat) (fuel : Nat),
      subtreeAt doc p = some t → t.height ≤ fuel →
      preorderGo (treeOps doc).getChildren fuel p true =
        (preorderPaths t).map (fun q => p ++ q) := by
  refine DTree.indP
    (P := fun t => ∀ (p : List Nat) (fuel : Nat),
      subtreeAt doc p = some t → t.height ≤ fuel →
      preorderGo (treeOps doc).getChildren fuel p true =
        (preorderPaths t).map (fun q => p ++ q))
    (Q := fun cs => ∀ (p : List Nat) (j fuel : Nat),
      (∀ i, (hi : i < cs.length) → subtreeAt doc (p ++ [j + i]) = some cs[i]) →
      DTree.heightL cs ≤ fuel →
      ((List.range cs.length).map (fun i => p ++ [j + i])).flatMap
          (fun c => preorderGo (treeOps doc).getChildren fuel c true) =
        (preorderPathsL j cs).map (fun q => p ++ q))
    ?_ ?_ ?_
  · -- node case
    intro d cs hq p fuel hsub hh
    have hh1 : DTree.heightL cs + 1 ≤ fuel := hh
    cases fuel with
    | zero => omega
    | succ f =>
      rw [preorderGo_succ, treeOps_getChildren doc p (DTree.node d cs) hsub]
      have hchildren : (DTree.node d cs).children = cs := rfl
      rw [hchildren]
      have hmap : (List.range cs.length).map (fun i => p ++ [i]) =
          (List.range cs.length).map (fun i => p ++ [0 + i]) := by
        simp
      rw [hmap, hq p 0 f
        (fun i hi => by
          rw [subtreeAt_child doc p (DTree.node d cs) hsub (0 + i)]
          simp only [Nat.zero_add]
          show cs[i]? = some cs[i]
          exact List.getElem?_eq_getElem hi)
        (by omega)]
      show p :: _ = (([] :: preorderPathsL 0 cs).map (fun q => p ++ q))
      simp
  · -- nil case
    intro p j fuel _ _
    simp [preorderPathsL]
  · -- cons case
    intro t ts hp hq p j fuel hsubs hh
    have hht : t.height ≤ fuel := by
      have h1 : t.height ≤ DTree.heightL (t :: ts) := by
        show t.height ≤ max t.height (DTree.heightL ts); omega
      omega
    have hhts : DTree.heightL ts ≤ fuel := by
      have h1 : DTree.heightL ts ≤ DTree.heightL (t :: ts) := by
        show DTree.heightL ts ≤ max t.height (DTree.heightL ts); omega
      omega
    have hlen : (t :: ts).length = ts.length + 1 := rfl
    rw [hlen, List.range_succ_eq_map]
    simp only [List.map_cons, List.map_map, List.flatMap_cons]
    have hfirst : preorderGo (treeOps doc).getChildren fuel (p ++ [j + 0]) true =
        (preorderPaths t).map (fun q => (p ++ [j]) ++ q) := by
      have hs0 := hsubs 0 (by simp)
      simp only [Nat.add_zero] at hs0 ⊢
      exact hp (p ++ [j]) fuel hs0 hht
    rw [hfirst]
    have hsnd : ((List.range ts.length).map ((fun i => p ++ [j + i]) ∘ Nat.succ)).flatMap
        (fun c => preorderGo (treeOps doc).getChildren fuel c true) =
        (preorderPathsL (j + 1) ts).map (fun q => p ++ q) := by
      have hfun : ((fun i => p ++ [j + i]) ∘ Nat.succ) = (fun i => p ++ [(j + 1) + i]) := by
        funext i
        simp only [Function.comp]
        congr 2
        omega
      rw [hfun]
      exact hq p (j + 1) fuel
        (fun i hi => by
          have := hsubs (i + 1) (by simp only [hlen]; omega)
          rw [show j + (i + 1) = (j + 1) + i from by omega] at this
          rw [this]
          simp)
        hhts
    rw [hsnd]
    have hpaths : preorderPathsL j (t :: ts) =
        (preorderPaths t).map (fun q => j :: q) ++ preorderPathsL (j + 1) ts := by
      rfl
    rw [hpaths, List.map_append, List.map_map]
    congr 1
    apply List.map_congr_left
    intro q _
    simp [List.append_assoc]

theorem preorderPaths_node (doc : DTree) :
    preorderPaths doc = [] :: preorderPathsL 0 doc.children := by
  cases doc with
  | node d cs => rfl

theorem traverse_eq_preorderExcl (doc : DTree) (fuel : Nat)
    (hf : DTree.size doc ≤ fuel) :
    preorderDepthFirstTraverse (treeOps doc) fuel [] false = preorderExcl doc := by
  have hh : doc.height ≤ fuel := le_trans (DTree.height_le_size doc) hf
  have h1 := DTree.height_pos doc
  cases fuel with
  | zero => omega
  | succ f =>
    have h2 : preorderGo (treeOps doc).getChildren (f + 1) [] true =
        (preorderPaths doc).map (fun q => [] ++ q) :=
      preorderGo_eq_paths doc doc [] (f + 1) rfl (by omega)
    have h3 : (preorderPaths doc).map (fun q => ([] : List Nat) ++ q) =
        preorderPaths doc := by simp
    rw [h3, preorderGo_succ, preorderPaths_node] at h2
    have h5 : ((treeOps doc).getChildren []).flatMap
        (fun c => preorderGo (treeOps doc).getChildren f c true) =
        preorderPathsL 0 doc.children := by
      have := h2
      simp only [List.cons.injEq, true_and] at this
      exact this
    show ((treeOps doc).getChildren []).flatMap
        (fun c => preorderGo (treeOps doc).getChildren f c true) = preorderExcl doc
    unfold preorderExcl
    exact h5

theorem mem_preorderPaths_valid (doc : DTree) :
    ∀ t : DTree, ∀ p : List Nat, subtreeAt doc p = some t →
      ∀ q ∈ preorderPaths t, ValidPath doc (p ++ q) := by
  refine DTree.indP
    (P := fun t => ∀ p : List Nat, subtreeAt doc p = some t →
      ∀ q ∈ preorderPaths t, ValidPath doc (p ++ q))
    (Q := fun cs => ∀ (p : List Nat) (j : Nat),
      (∀ i, (hi : i < cs.length) → subtreeAt doc (p ++ [j + i]) = some cs[i]) →
      ∀ q ∈ preorderPathsL j cs, ValidPath doc (p ++ q))
    ?_ ?_ ?_
  · intro d cs hq p hsub q hmem
    rw [preorderPaths_node] at hmem
    rcases List.mem_cons.mp hmem with rfl | hmem
    · unfold ValidPath
      simp [hsub]
    · exact hq p 0
        (fun i hi => by
          rw [subtreeAt_child doc p (DTree.node d cs) hsub (0 + i)]
          simp only [Nat.zero_add]
          show cs[i]? = some cs[i]
          exact List.getElem?_eq_getElem hi)
        q hmem
  · intro p j _ q hmem
    cases hmem
  · intro t ts hp hq p j hsubs q hmem
    have hpaths : preorderPathsL j (t :: ts) =
        (preorderPaths t).map (fun q => j :: q) ++ preorderPathsL (j + 1) ts := rfl
    rw [hpaths, List.mem_append] at hmem
    rcases hmem with hmem | hmem
    · obtain ⟨q', hq', rfl⟩ := List.mem_map.mp hmem
      have hs0 := hsubs 0 (by simp)
      simp only [Nat.add_zero] at hs0
      have := hp (p ++ [j]) hs0 q' hq'
      simpa [List.append_assoc] using this
    · exact hq p (j + 1)
        (fun i hi => by
          have := hsubs (i + 1) (by simp only [List.length_cons]; omega)
          rw [show j + (i + 1) = (j + 1) + i from by omega] at this
          rw [this]
          simp)
        q hmem

theorem mem_preorderExcl_valid (doc : DTree) :
    ∀ n ∈ preorderExcl doc, ValidPath doc n := by
  intro n hn
  have h1 : n ∈ preorderPaths doc := by
    rw [preorderPaths_node]
    exact List.mem_cons_of_mem _ hn
  have := mem_preorderPaths_valid doc doc [] rfl n h1
  simpa using this

/-- C1: `querySelectorAll` parses the selector string, traverses the document
in preorder excluding the root itself, and returns exactly the visited nodes
the parsed selector list matches, in traversal (preorder) order — an `ok`
list (possibly empty), never an absence value.  The hypothesis states that
matching is error-free on the visited nodes (the error case is claim C7). -/
theorem claim_C1_querySelectorAll_filter (doc : DTree) (fuel : Nat)
    (parseF : String → List ComplexSelector) (s : String)
    (hf : DTree.size doc ≤ fuel)
    (hok : ∀ n ∈ preorderExcl doc,
      (matchSelectors (treeOps doc) fuel n (parseF s)).isOk = true) :
    querySelectorAll (treeOps doc) fuel parseF [] s =
      .ok ((preorderExcl doc).filter
        (fun n => matchesOk (treeOps doc) fuel n (parseF s))) := by
  unfold querySelectorAll
  rw [traverse_eq_preorderExcl doc fuel hf,
    queryAllLoop_filter (treeOps doc) fuel (parseF s) (preorderExcl doc) [] hok]
  simp

theorem claim_C1_witness :
    querySelectorAll (treeOps exDoc) 9 pfDiv [] "div" =
      .ok ((preorderExcl exDoc).filter
        (fun n => matchesOk (treeOps exDoc) 9 n (pfDiv "div"))) :=
  claim_C1_querySelectorAll_filter exDoc 9 pfDiv "div" (by decide) (by decide)

theorem descendantCollector_eq (doc : DTree) (fuel : Nat) :
    ∀ (nodes : List (List Nat)) (init : List (List Nat)),
      (∀ n ∈ nodes, n.length ≤ fuel) →
      nodes.foldl (fun acc n =>
        chainCollect (treeOps doc).getParent fuel ((treeOps doc).getParent n) acc) init =
      nodes.foldl (fun acc n => dedupInto acc (ancestorsOf n)) init := by
  intro nodes
  induction nodes with
  | nil => intro init _; rfl
  | cons n rest ih =>
    intro init h
    simp only [List.foldl_cons]
    rw [chainCollect_eq_dedupInto,
      chainElems_parent doc fuel n (h n (List.mem_cons_self n rest))]
    exact ih _ (fun x hx => h x (List.mem_cons_of_mem n hx))

theorem descendantCollector_stable (doc : DTree) (fuel fuel' : Nat)
    (nodes : List (List Nat))
    (h : ∀ n ∈ nodes, n.length ≤ fuel) (h' : ∀ n ∈ nodes, n.length ≤ fuel') :
    descendantCollector (treeOps doc) fuel nodes =
      descendantCollector (treeOps doc) fuel' nodes := by
  unfold descendantCollector
  rw [descendantCollector_eq doc fuel nodes [] h,
    descendantCollector_eq doc fuel' nodes [] h']

theorem subsequentSiblingCollector_eq (doc : DTree) (fuel : Nat) :
    ∀ (nodes : List (List Nat)) (init : List (List Nat)),
      (∀ n ∈ nodes, n.getLast?.getD 0 ≤ fuel) →
      nodes.foldl (fun acc n =>
        chainCollect (treeOps doc).getPreviouSibling fuel
          ((treeOps doc).getPreviouSibling n) acc) init =
      nodes.foldl (fun acc n => dedupInto acc (prevSiblingsOf n)) init := by
  intro nodes
  induction nodes with
  | nil => intro init _; rfl
  | cons n rest ih =>
    intro init h
    simp only [List.foldl_cons, treeOps_getPreviouSibling_eq]
    rw [chainCollect_eq_dedupInto,
      chainElems_prevSib n fuel (h n (List.mem_cons_self n rest))]
    exact ih _ (fun x hx => h x (List.mem_cons_of_mem n hx))

theorem subsequentSiblingCollector_stable (doc : DTree) (fuel fuel' : Nat)
    (nodes : List (List Nat))
    (h : ∀ n ∈ nodes, n.getLast?.getD 0 ≤ fuel)
    (h' : ∀ n ∈ nodes, n.getLast?.getD 0 ≤ fuel') :
    subsequentSiblingCollector (treeOps doc) fuel nodes =
      subsequentSiblingCollector (treeOps doc) fuel' nodes := by
  unfold subsequentSiblingCollector
  rw [subsequentSiblingCollector_eq doc fuel nodes [] h,
    subsequentSiblingCollector_eq doc fuel' nodes [] h']

theorem collectors_stable (doc : DTree) (fuel fuel' : Nat) (k : CombinatorKind)
    (nodes : List (List Nat)) (hv : ∀ n ∈ nodes, ValidPath doc n)
    (hf : DTree.size doc ≤ fuel) (hf' : DTree.size doc ≤ fuel') :
    collectors (treeOps doc) fuel k nodes = collectors (treeOps doc) fuel' k nodes := by
  cases k with
  | Descendant =>
    unfold collectors
    rw [descendantCollector_stable doc fuel fuel' nodes
      (fun n hn => by have := valid_length_lt doc n (hv n hn); omega)
      (fun n hn => by have := valid_length_lt doc n (hv n hn); omega)]
  | Child => rfl
  | NextSibling => rfl
  | SubsequentSibling =>
    unfold collectors
    rw [subsequentSiblingCollector_stable doc fuel fuel' nodes
      (fun n hn => by have := valid_lastIdx_lt doc n (hv n hn); omega)
      (fun n hn => by have := valid_lastIdx_lt doc n (hv n hn); omega)]
  | Column => rfl

theorem collectors_valid (doc : DTree) (fuel : Nat) (k : CombinatorKind)
    (nodes l : List (List Nat)) (hv : ∀ n ∈ nodes, ValidPath doc n)
    (hf : DTree.size doc ≤ fuel)
    (hcol : collectors (treeOps doc) fuel k nodes = .ok l) :
    ∀ x ∈ l, ValidPath doc x := by
  cases k with
  | Descendant =>
    simp only [collectors, Except.ok.injEq] at hcol
    subst hcol
    intro x hx
    unfold descendantCollector at hx
    rw [mem_foldl_chainCollect] at hx
    rcases hx with hx | ⟨n, hn, hx⟩
    · simp at hx
    · rw [chainElems_parent doc fuel n
        (by have := valid_length_lt doc n (hv n hn); omega)] at hx
      have h2 := (mem_ancestorsOf x n).mp hx
      exact valid_of_prefix doc x n h2.1 (hv n hn)
  | Child =>
    simp only [collectors, Except.ok.injEq] at hcol
    subst hcol
    intro x hx
    unfold childCollector at hx
    rw [mem_foldl_pushIfNew] at hx
    rcases hx with hx | ⟨n, hn, hx⟩
    · simp at hx
    · obtain ⟨i, rfl⟩ := (treeOps_getParent_eq_some_iff doc n x).mp hx
      exact valid_of_prefix doc x (x ++ [i]) ⟨[i], rfl⟩ (hv _ hn)
  | NextSibling =>
    simp only [collectors, Except.ok.injEq] at hcol
    subst hcol
    intro x hx
    unfold nextSiblingCollector at hx
    rw [mem_foldl_pushIfNew] at hx
    rcases hx with hx | ⟨n, hn, hx⟩
    · simp at hx
    · rw [treeOps_getPreviouSibling_eq] at hx
      obtain ⟨q, i, rfl, rfl⟩ := (prevSiblingPath_eq_some_iff n x).mp hx
      exact valid_sibling doc q i (i + 1) (by omega) (hv _ hn)
  | SubsequentSibling =>
    simp only [collectors, Except.ok.injEq] at hcol
    subst hcol
    intro x hx
    unfold subsequentSiblingCollector at hx
    rw [mem_foldl_chainCollect] at hx
    rcases hx with hx | ⟨n, hn, hx⟩
    · simp at hx
    · rw [treeOps_getPreviouSibling_eq,
        chainElems_prevSib n fuel
          (by have := valid_lastIdx_lt doc n (hv n hn); omega)] at hx
      obtain ⟨q, i, j, hij, rfl, rfl⟩ := (mem_prevSiblingsOf x n).mp hx
      exact valid_sibling doc q i j hij (hv _ hn)
  | Column => cases hcol

theorem complexLoop_stable (doc : DTree) (fuel fuel' : Nat)
    (hf : DTree.size doc ≤ fuel) (hf' : DTree.size doc ≤ fuel') :
    ∀ (l : List (CombinatorKind × CompoundSelector)) (cands : List (List Nat)),
      (∀ c ∈ cands, ValidPath doc c) →
      complexLoop (treeOps doc) fuel l cands =
        complexLoop (treeOps doc) fuel' l cands := by
  intro l
  induction l with
  | nil => intro cands _; rfl
  | cons p rest ih =>
    intro cands hv
    obtain ⟨comb, sel⟩ := p
    rw [complexLoop_cons, complexLoop_cons]
    have hvf : ∀ c ∈ cands.filter (fun t => matchCompoundSelector (treeOps doc) t sel),
        ValidPath doc c := fun c hc => hv c (List.mem_of_mem_filter hc)
    by_cases hemp :
        (cands.filter (fun t => matchCompoundSelector (treeOps doc) t sel)).isEmpty = true
    · rw [if_pos hemp, if_pos hemp]
    · rw [if_neg hemp, if_neg hemp,
        collectors_stable doc fuel fuel' comb _ hvf hf hf']
      cases hcol : collectors (treeOps doc) fuel' comb
          (cands.filter (fun t => matchCompoundSelector (treeOps doc) t sel)) with
      | error e => rfl
      | ok next => exact ih next (collectors_valid doc fuel' comb _ next hvf hf' hcol)

theorem matchComplexSelector_stable (doc : DTree) (fuel fuel' : Nat)
    (hf : DTree.size doc ≤ fuel) (hf' : DTree.size doc ≤ fuel')
    (root : List Nat) (hroot : ValidPath doc root) (sel : ComplexSelector) :
    matchComplexSelector (treeOps doc) fuel root sel =
      matchComplexSelector (treeOps doc) fuel' root sel := by
  unfold matchComplexSelector
  rw [complexLoop_stable doc fuel fuel' hf hf' sel.tail.reverse [root]
    (fun c hc => by rw [List.mem_singleton.mp hc]; exact hroot)]

theorem matchSelectors_stable (doc : DTree) (fuel fuel' : Nat)
    (hf : DTree.size doc ≤ fuel) (hf' : DTree.size doc ≤ fuel')
    (root : List Nat) (hroot : ValidPath doc root) :
    ∀ sels : List ComplexSelector,
      matchSelectors (treeOps doc) fuel root sels =
        matchSelectors (treeOps doc) fuel' root sels := by
  intro sels
  induction sels with
  | nil => rfl
  | cons s rest ih =>
    simp only [matchSelectors]
    rw [matchComplexSelector_stable doc fuel fuel' hf hf' root hroot s]
    cases matchComplexSelector (treeOps doc) fuel' root s with
    | error e => rfl
    | ok b => cases b with
      | true => rfl
      | false => exact ih

theorem queryAllLoop_stable (doc : DTree) (fuel fuel' : Nat)
    (hf : DTree.size doc ≤ fuel) (hf' : DTree.size doc ≤ fuel')
    (sels : List ComplexSelector) :
    ∀ (visited acc : List (List Nat)), (∀ n ∈ visited, ValidPath doc n) →
      queryAllLoop (treeOps doc) fuel sels visited acc =
        queryAllLoop (treeOps doc) fuel' sels visited acc := by
  intro visited
  induction visited with
  | nil => intro acc _; rfl
  | cons n rest ih =>
    intro acc hv
    simp only [queryAllLoop]
    rw [matchSelectors_stable doc fuel fuel' hf hf' n (hv n (List.mem_cons_self n rest))]
    cases matchSelectors (treeOps doc) fuel' n sels with
    | error e => rfl
    | ok b =>
      cases b with
      | true => exact ih (acc ++ [n]) (fun x hx => hv x (List.mem_cons_of_mem n hx))
      | false => exact ih acc (fun x hx => hv x (List.mem_cons_of_mem n hx))

theorem queryFirstLoop_stable (doc : DTree) (fuel fuel' : Nat)
    (hf : DTree.size doc ≤ fuel) (hf' : DTree.size doc ≤ fuel')
    (sels : List ComplexSelector) :
    ∀ visited : List (List Nat), (∀ n ∈ visited, ValidPath doc n) →
      queryFirstLoop (treeOps doc) fuel sels visited =
        queryFirstLoop (treeOps doc) fuel' sels visited := by
  intro visited
  induction visited with
  | nil => intro _; rfl
  | cons n rest ih =>
    intro hv
    simp only [queryFirstLoop]
    rw [matchSelectors_stable doc fuel fuel' hf hf' n (hv n (List.mem_cons_self n rest))]
    cases matchSelectors (treeOps doc) fuel' n sels with
    | error e => rfl
    | ok b =>
      cases b with
      | true => rfl
      | false => exact ih (fun x hx => hv x (List.mem_cons_of_mem n hx))

theorem preorderPaths_length :
    ∀ t : DTree, (preorderPaths t).length = t.size := by
  refine DTree.indP
    (P := fun t => (preorderPaths t).length = t.size)
    (Q := fun cs => ∀ j, (preorderPathsL j cs).length = DTree.sizeL cs)
    ?_ ?_ ?_
  · intro d cs hq
    rw [preorderPaths_node]
    show (preorderPathsL 0 cs).length + 1 = 1 + DTree.sizeL cs
    rw [hq 0]
    omega
  · intro j; rfl
  · intro t ts hp hq j
    show ((preorderPaths t).map (fun q => j :: q) ++ preorderPathsL (j + 1) ts).length =
      t.size + DTree.sizeL ts
    rw [List.length_append, List.length_map, hp, hq (j + 1)]

/-- C9: under the adapter contract of a finite acyclic tree (the `DTree`
document model), the preorder traversal produces a finite sequence — the
canonical preorder path list, whose length (plus the excluded root) is the
number of nodes — and every `querySelector` / `querySelectorAll` call and
every ancestor / preceding-sibling collection loop terminates: their fueled
embeddings are independent of the fuel once it reaches the document size,
i.e. the loops reach their fixpoint after finitely many iterations. -/
theorem claim_C9_termination (doc : DTree) (fuel fuel' : Nat)
    (parseF : String → List ComplexSelector) (s : String)
    (hf : DTree.size doc ≤ fuel) (hf' : DTree.size doc ≤ fuel') :
    preorderDepthFirstTraverse (treeOps doc) fuel [] false = preorderExcl doc ∧
    (preorderExcl doc).length + 1 = DTree.size doc ∧
    querySelector (treeOps doc) fuel parseF [] s =
      querySelector (treeOps doc) fuel' parseF [] s ∧
    querySelectorAll (treeOps doc) fuel parseF [] s =
      querySelectorAll (treeOps doc) fuel' parseF [] s ∧
    (∀ nodes : List (List Nat), (∀ n ∈ nodes, ValidPath doc n) →
      descendantCollector (treeOps doc) fuel nodes =
        descendantCollector (treeOps doc) fuel' nodes ∧
      subsequentSiblingCollector (treeOps doc) fuel nodes =
        subsequentSiblingCollector (treeOps doc) fuel' nodes) := by
  have htrav := traverse_eq_preorderExcl doc fuel hf
  have htrav' := traverse_eq_preorderExcl doc fuel' hf'
  have hvalid := mem_preorderExcl_valid doc
  refine ⟨htrav, ?_, ?_, ?_, ?_⟩
  · have h1 := preorderPaths_length doc
    rw [preorderPaths_node] at h1
    unfold preorderExcl
    simp only [List.length_cons] at h1
    omega
  · unfold querySelector
    rw [htrav, htrav', queryFirstLoop_stable doc fuel fuel' hf hf' (parseF s)
      (preorderExcl doc) hvalid]
  · unfold querySelectorAll
    rw [htrav, htrav', queryAllLoop_stable doc fuel fuel' hf hf' (parseF s)
      (preorderExcl doc) [] hvalid]
  · intro nodes hv
    constructor
    · exact descendantCollector_stable doc fuel fuel' nodes
        (fun n hn => by have := valid_length_lt doc n (hv n hn); omega)
        (fun n hn => by have := valid_length_lt doc n (hv n hn); omega)
    · exact subsequentSiblingCollector_stable doc fuel fuel' nodes
        (fun n hn => by have := valid_lastIdx_lt doc n (hv n hn); omega)
        (fun n hn => by have := valid_lastIdx_lt doc n (hv n hn); omega)

theorem claim_C9_witness :
    preorderDepthFirstTraverse (treeOps exDoc) 9 [] false = preorderExcl exDoc ∧
    (preorderExcl exDoc).length + 1 = DTree.size exDoc ∧
    querySelector (treeOps exDoc) 9 pfDiv [] "div" =
      querySelector (treeOps exDoc) 17 pfDiv [] "div" ∧
    querySelectorAll (treeOps exDoc) 9 pfDiv [] "div" =
      querySelectorAll (treeOps exDoc) 17 pfDiv [] "div" ∧
    (∀ nodes : List (List Nat), (∀ n ∈ nodes, ValidPath exDoc n) →
      descendantCollector (treeOps exDoc) 9 nodes =
        descendantCollector (treeOps exDoc) 17 nodes ∧
      subsequentSiblingCollector (treeOps exDoc) 9 nodes =
        subsequentSiblingCollector (treeOps exDoc) 17 nodes) :=
  claim_C9_termination exDoc 9 17 pfDiv "div" (by decide) (by decide)
